import Mathlib

/-!
# The semaphore slow paths of `lib/semaphore.cpp`

A shallow embedding of the out-of-line functions of `lib/semaphore.cpp`:
the wait-table index, the counting semaphore's conditional decrement and
release, and the binary semaphore's release and ticketed acquire.

Atomic objects are 32-bit words kept as natural numbers (their bit pattern).
Every atomic operation of a function consumes one `Tick` of the environment,
which says what other threads stored into the accessed object since the
function's previous operation, whether a weak compare-exchange fails
spuriously, and what the clock reads.  An environment in which every `pre` is
`none` is a run without interference.
-/

namespace Semaphore

/-! ## Machine words -/

/-- Addition of two 32-bit words. -/
def add32 (a b : Nat) : Nat := (a + b) % 4294967296

/-- Subtraction of two 32-bit words. -/
def sub32 (a b : Nat) : Nat := (a + (4294967296 - b % 4294967296)) % 4294967296

/-- Multiplication of two 32-bit words. -/
def mul32 (a b : Nat) : Nat := (a * b) % 4294967296

/-- Left shift `a << s` of a 32-bit word. -/
def shl32 (a s : Nat) : Nat := (a <<< s) % 4294967296

/-- Bitwise complement `~a` of a 32-bit word. -/
def not32 (a : Nat) : Nat := 4294967295 ^^^ (a % 4294967296)

/-- The value of a 32-bit pattern read as a two's-complement `int`. -/
def toInt32 (a : Nat) : Int :=
  if a % 4294967296 < 2147483648 then ((a % 4294967296 : Nat) : Int)
  else ((a % 4294967296 : Nat) : Int) - 4294967296

/-! ## Environment and observable events -/

/-- What the environment decides at one atomic operation of the running call. -/
structure Tick where
  /-- The value another thread stored into the accessed object since the
  call's previous operation (`none`: nobody touched it). -/
  pre : Option Nat
  /-- A `compare_exchange_weak` at this operation fails spuriously. -/
  spurious : Bool
  /-- First reading of `__semaphore_clock::now()` inside the timed callback. -/
  now1 : Int
  /-- Second reading of `__semaphore_clock::now()` inside the timed callback. -/
  now2 : Int
deriving DecidableEq

/-- A tick of a run without interference and without spurious failure. -/
def Tick.calm : Tick := ⟨none, false, 0, 0⟩

/-- A tick of a run without interference whose weak CAS fails spuriously iff `b`. -/
def Tick.solo (b : Bool) : Tick := ⟨none, b, 0, 0⟩

/-- The operations a call performs on shared objects, in program order. -/
inductive Ev where
  /-- `ticket.fetch_add(1)` returned `seen`. -/
  | ticketFetchAdd (seen : Nat)
  /-- The `tocket.load()` before the loop (line 166) returned `seen`. -/
  | tocketInit (seen : Nat)
  /-- The `tocket.load()` of a loop iteration (line 199) returned `seen`. -/
  | tocketLoad (seen : Nat)
  /-- `sleep_for(nanoseconds(delta))`. -/
  | sleep (delta : Nat)
  /-- `atom.fetch_or(mask)` returned `seen`. -/
  | fetchOr (mask seen : Nat)
  /-- `atomic_thread_fence(seq_cst)`. -/
  | fence
  /-- The callback `fn(old)` returned `res`. -/
  | fn (old : Nat) (res : Bool)
  /-- `atom.load()` returned `seen`. -/
  | atomLoad (seen : Nat)
  /-- `atom.compare_exchange_weak(expected, desired)` found `seen`; `ok` iff it stored. -/
  | cas (expected desired seen : Nat) (ok : Bool)
  /-- `atom.fetch_add(term)`. -/
  | fetchAdd (term : Nat)
  /-- `atom.fetch_and(mask)`. -/
  | fetchAnd (mask : Nat)
  /-- `__semaphore_wake_one(atom)`. -/
  | wakeOne
  /-- `__semaphore_wake_all(atom)`. -/
  | wakeAll
  /-- The inner claiming loop was left with the value bit set
  (control reached `if(contbit == 0)`, line 208). -/
  | headUnavailable
deriving DecidableEq

/-- The state of a call after it consumed an environment: the atomic word, the
operations performed so far and the returned value (`none`: still running). -/
structure Run (α : Type) where
  atom : Nat
  trace : List Ev
  ret : Option α
deriving DecidableEq

/-! ## The wait table (lines 352-374) -/

/-- The constant `__atomic_wait_table_entry_count`. -/
def atomic_wait_table_entry_count : Nat := 1024

/-- The overload `__atomic_wait_table_index(void const* ptr)`. -/
def atomic_wait_table_index (ptr : Nat) : Nat :=
  (ptr >>> 6) &&& (atomic_wait_table_entry_count - 1)

/-- The overload `__atomic_wait_table_index(void const volatile* ptr)`. -/
def atomic_wait_table_index_volatile (ptr : Nat) : Nat :=
  (ptr >>> 6) &&& (atomic_wait_table_entry_count - 1)

/-- The offset `condition_variable_atomic::__from_ptr` adds to `__atomic_wait_table`. -/
def from_ptr (a : Nat) : Nat := atomic_wait_table_index a

/-! ## Counting semaphore (lines 262-303) -/

/-- The constants `counting_semaphore::__shift`, `__valumask`, `__contmask` and
`__lockmask`.  They are declared in the header `semaphore`, which is not among
the sources, and are therefore parameters. -/
structure CountingConsts where
  shift : Nat
  valumask : Nat
  contmask : Nat
  lockmask : Nat
deriving DecidableEq

/-- The layout the functions rely on: the count occupies the bits from `shift`
upwards, `valumask` selects exactly those bits, and the contention and lock
flags are distinct non-zero masks below the count. -/
def CountingConsts.WF (c : CountingConsts) : Prop :=
  c.shift ≤ 30 ∧ c.valumask = 4294967296 - 2 ^ c.shift ∧
  0 < c.lockmask ∧ c.lockmask < 2 ^ c.shift ∧
  0 < c.contmask ∧ c.contmask < 2 ^ c.shift ∧
  c.lockmask &&& c.contmask = 0

instance (c : CountingConsts) : Decidable c.WF := by
  unfold CountingConsts.WF; infer_instance

/-- The expression `old >> __shift`, the count field of the word `old`.  The
word is an `int` (the code keeps it in `int` variables, lines 280 and 314), so
the shift is arithmetic. -/
def CountingConsts.count (c : CountingConsts) (w : Nat) : Int :=
  toInt32 w >>> c.shift

/-- The enumeration `semaphore_notify`. -/
inductive Notify where
  | none
  | one
  | all
deriving DecidableEq

/-- The function `counting_semaphore::__fetch_sub_if_slow(old)` run on the word
`atom` against the environment `env`. -/
def fetch_sub_if_slow (c : CountingConsts) : Nat → Nat → List Tick → Run Bool
  | atom, _, [] => ⟨atom, [], none⟩
  | atom, old, t :: ts =>
    let cur := t.pre.getD atom
    let old := old &&& not32 c.lockmask
    let set := sub32 old (shl32 1 c.shift)
    if cur = old ∧ t.spurious = false then
      ⟨set, [Ev.cas old set cur true], some true⟩
    else
      let old' := cur
      if 1 ≤ c.count old' then
        let r := fetch_sub_if_slow c cur old' ts
        ⟨r.atom, Ev.cas old set cur false :: r.trace, r.ret⟩
      else
        ⟨cur, [Ev.cas old set cur false], some false⟩

/-- The wake of `__fetch_add_slow`'s `switch (notify)`. -/
def wakeOf : Notify → List Ev
  | Notify.all => [Ev.wakeAll]
  | Notify.one => [Ev.wakeOne]
  | Notify.none => []

/-- The function `counting_semaphore::__fetch_add_slow(term, old, order, notify)`
run on the word `atom` against the environment `env`. -/
def fetch_add_slow (c : CountingConsts) (term : Nat) (notify : Notify) :
    Nat → Nat → List Tick → Run Unit
  | atom, _, [] => ⟨atom, [], none⟩
  | atom, old, t :: ts =>
    let cur := t.pre.getD atom
    let apply_lock : Bool := (old &&& c.contmask != 0) && (notify != Notify.none)
    let set := add32 (old &&& c.valumask) (shl32 term c.shift) |||
      (if apply_lock then c.lockmask else 0)
    let old := old &&& not32 c.lockmask
    if cur = old ∧ t.spurious = false then
      if apply_lock then
        match ts with
        | [] => ⟨set, Ev.cas old set cur true :: wakeOf notify, none⟩
        | t' :: _ =>
          ⟨t'.pre.getD set &&& not32 c.lockmask,
            Ev.cas old set cur true :: (wakeOf notify ++ [Ev.fetchAnd (not32 c.lockmask)]),
            some ()⟩
      else
        ⟨set, [Ev.cas old set cur true], some ()⟩
    else
      let r := fetch_add_slow c term notify cur cur ts
      ⟨r.atom, Ev.cas old set cur false :: r.trace, r.ret⟩

/-- A layout that satisfies `WF` (`__shift = 2`, `__valumask = ~3`,
`__contmask = 2`, `__lockmask = 1`); used only to exhibit concrete runs. -/
def CountingConsts.std : CountingConsts := ⟨2, 4294967292, 2, 1⟩

/-! ## Auxiliary notions used in the statements -/

/-- The unsigned content of the bits from `s` upwards of a 32-bit word. -/
def hi32 (s w : Nat) : Nat := (w % 4294967296) / 2 ^ s

/-- An environment without interference: the weak compare-exchanges fail
spuriously as `sp` says (one entry per operation), and no longer after that. -/
def fair (sp : List Bool) : List Tick :=
  sp.map Tick.solo ++ [Tick.calm, Tick.calm, Tick.calm]

/-- A call on the counting semaphore: `sub old sp` is `__fetch_sub_if_slow(old)`,
`add term old notify sp` is `__fetch_add_slow(term, old, order, notify)`; each
runs to completion without interference against `fair sp`. -/
inductive Op where
  | sub (old : Nat) (sp : List Bool)
  | add (term old : Nat) (notify : Notify) (sp : List Bool)

/-- The units released by a sequence of calls. -/
def released : List Op → Nat
  | [] => 0
  | Op.sub _ _ :: ops => released ops
  | Op.add term _ _ _ :: ops => term + released ops

/-- The calls of `ops` run one after the other on the word `w`: the final word
and the number of decrements that returned `true` (`none` if a call did not
return). -/
def runOps (c : CountingConsts) : Nat → List Op → Option (Nat × Nat)
  | w, [] => some (w, 0)
  | w, Op.sub old sp :: ops =>
    match (fetch_sub_if_slow c w old (fair sp)).ret with
    | none => none
    | some b =>
      (runOps c (fetch_sub_if_slow c w old (fair sp)).atom ops).map
        (fun r => (r.1, r.2 + (if b then 1 else 0)))
  | w, Op.add term old notify sp :: ops =>
    match (fetch_add_slow c term notify w old (fair sp)).ret with
    | none => none
    | some _ => runOps c (fetch_add_slow c term notify w old (fair sp)).atom ops

/-- What a completed release leaves: a word in range, lock mask clear, whose
count bits are those of `w` plus `n`, modulo the width of the field. -/
def AddDone (c : CountingConsts) (w n : Nat) (r : Run Unit) : Prop :=
  r.ret = some () ∧ r.atom < 4294967296 ∧ r.atom &&& c.lockmask = 0 ∧
    hi32 c.shift r.atom = (hi32 c.shift w + n) % 2 ^ (32 - c.shift)

/-- What a completed conditional decrement leaves: a word in range, lock mask
clear, whose count bits are those of `w` minus one (modulo the width of the
field) if it returned `true`, and `w` itself if it returned `false`. -/
def SubDone (c : CountingConsts) (w : Nat) (r : Run Bool) : Prop :=
  ∃ b, r.ret = some b ∧ r.atom < 4294967296 ∧ r.atom &&& c.lockmask = 0 ∧
    (b = true → hi32 c.shift r.atom =
      (hi32 c.shift w + (2 ^ (32 - c.shift) - 1)) % 2 ^ (32 - c.shift)) ∧
    (b = false → r.atom = w)

/-! ## Binary semaphore (lines 160-256) -/

/-- The constants `binary_semaphore::__valubit`, `__lockbit`, `__slowbit` and
`__contbit`, given by the position of the single bit each of them is.  They are
declared in the header `semaphore`, which is not among the sources, and are
therefore parameters. -/
structure BinaryConsts where
  valu : Nat
  lock : Nat
  slow : Nat
  cont : Nat
deriving DecidableEq

/-- The constant `binary_semaphore::__valubit`. -/
def BinaryConsts.valubit (b : BinaryConsts) : Nat := 2 ^ b.valu

/-- The constant `binary_semaphore::__lockbit`. -/
def BinaryConsts.lockbit (b : BinaryConsts) : Nat := 2 ^ b.lock

/-- The constant `binary_semaphore::__slowbit`. -/
def BinaryConsts.slowbit (b : BinaryConsts) : Nat := 2 ^ b.slow

/-- The constant `binary_semaphore::__contbit`. -/
def BinaryConsts.contbit (b : BinaryConsts) : Nat := 2 ^ b.cont

/-- The layout the functions rely on: four distinct bits of a 32-bit word, the
unit of the continuation credit above the value bit. -/
def BinaryConsts.WF (b : BinaryConsts) : Prop :=
  b.valu < b.cont ∧ b.cont < 32 ∧ b.lock < 32 ∧ b.slow < 32 ∧
  b.lock ≠ b.valu ∧ b.lock ≠ b.slow ∧ b.lock ≠ b.cont ∧ b.slow ≠ b.valu ∧ b.slow ≠ b.cont

instance (b : BinaryConsts) : Decidable b.WF := by
  unfold BinaryConsts.WF; infer_instance

/-- A layout that satisfies `WF` (`__valubit = 1`, `__lockbit = 2`,
`__slowbit = 4`, `__contbit = 8`); used only to exhibit concrete runs. -/
def BinaryConsts.std : BinaryConsts := ⟨0, 1, 2, 3⟩

/-- The function `binary_semaphore::__release_slow(old)` (lines 216-229) run on
the word `atom` against the environment `env`. -/
def release_slow (b : BinaryConsts) : Nat → Nat → List Tick → Run Unit
  | atom, _, [] => ⟨atom, [], none⟩
  | atom, old, t :: ts =>
    let cur := t.pre.getD atom
    let old := old &&& not32 b.lockbit
    let lock := if old &&& b.slowbit ≠ 0 then b.lockbit else 0
    let set := (old ||| lock) &&& not32 (b.valubit ||| b.slowbit)
    if cur = old ∧ t.spurious = false then
      if lock ≠ 0 then
        match ts with
        | [] => ⟨set, [Ev.cas old set cur true, Ev.fence, Ev.wakeAll], none⟩
        | t' :: _ =>
          ⟨t'.pre.getD set &&& not32 b.lockbit,
            [Ev.cas old set cur true, Ev.fence, Ev.wakeAll, Ev.fetchAnd (not32 b.lockbit)],
            some ()⟩
      else
        ⟨set, [Ev.cas old set cur true], some ()⟩
    else
      let r := release_slow b cur cur ts
      ⟨r.atom, Ev.cas old set cur false :: r.trace, r.ret⟩

/-- The shared objects of a `binary_semaphore`: `__atom`, `__ticket`, `__tocket`. -/
structure Shared where
  atom : Nat
  ticket : Nat
  tocket : Nat
deriving DecidableEq

/-- The locals of `__binary_semaphore_acquire_slow`. -/
structure Local where
  tick : Nat
  tock : Nat
  contbit : Nat
  sum : Nat
  old : Nat
deriving DecidableEq

/-- The program points of `__binary_semaphore_acquire_slow`: the operation on a
shared object (or the callback) that comes next. -/
inductive PC where
  /-- Line 165, `ticket.fetch_add(1)`. -/
  | ticketFetchAdd
  /-- Line 166, the first `tocket.load()`. -/
  | tocketInit
  /-- Line 186, `atom.fetch_or(__slowbit)`. -/
  | fetchOr
  /-- Line 189 (fast path) or 196, `fn(old)`. -/
  | callFn
  /-- Line 193 (fast path) or 195, `atom.load()`. -/
  | atomLoad
  /-- Line 199, `tocket.load()`. -/
  | tocketLoad
  /-- Line 205, `atom.compare_exchange_weak(old, next)`. -/
  | cas
  /-- Line 209, `atom.fetch_add(contbit = __contbit)`. -/
  | addCredit
  /-- The call returned `r`. -/
  | done (r : Bool)
deriving DecidableEq

/-- How the function is built and called: whether `__semaphore_fast_path` is
defined, and the callback `fn`, which sees `old` and the clock of the tick. -/
structure Config where
  fast : Bool
  fn : Nat → Tick → Bool

/-- A call of `__binary_semaphore_acquire_slow` in progress. -/
structure Proc where
  sh : Shared
  lo : Local
  pc : PC
  trace : List Ev
deriving DecidableEq

/-- A call about to execute line 165. -/
def Proc.init (sh : Shared) : Proc := ⟨sh, ⟨0, 0, 0, 0, 0⟩, PC.ticketFetchAdd, []⟩

/-- Lines 170-185: the head of an iteration of `while(1)`, up to its first
operation on a shared object. -/
def loopHead (fast : Bool) (lo : Local) : Local × PC × List Ev :=
  if fast then
    if lo.sum < 64 * 1024 then
      ({ lo with sum := add32 lo.sum (mul32 (sub32 lo.tick lo.tock) 128) }, PC.atomLoad,
        [Ev.sleep (mul32 (sub32 lo.tick lo.tock) 128)])
    else (lo, PC.fetchOr, [])
  else
    (lo, PC.atomLoad, [Ev.sleep (mul32 (sub32 lo.tick lo.tock) 128)])

/-- Lines 202 and 208: the test of the inner `while` and, when it fails, the
test `contbit == 0` and the way back to the head of the outer loop. -/
def claimHead (b : BinaryConsts) (fast : Bool) (lo : Local) : Local × PC × List Ev :=
  if lo.old &&& b.valubit = 0 then (lo, PC.cas, [])
  else if lo.contbit = 0 then (lo, PC.addCredit, [Ev.headUnavailable])
  else ((loopHead fast lo).1, (loopHead fast lo).2.1, Ev.headUnavailable :: (loopHead fast lo).2.2)

/-- One operation of `__binary_semaphore_acquire_slow` on a shared object (or
one call of `fn`), with the local computation that follows it. -/
def step (b : BinaryConsts) (k : Config) (p : Proc) (t : Tick) : Proc :=
  match p.pc with
  | PC.ticketFetchAdd =>
    let v := t.pre.getD p.sh.ticket
    { sh := { p.sh with ticket := add32 v 1 }, lo := { p.lo with tick := v },
      pc := PC.tocketInit, trace := p.trace ++ [Ev.ticketFetchAdd v] }
  | PC.tocketInit =>
    let v := t.pre.getD p.sh.tocket
    let lo : Local := { p.lo with tock := v, contbit := 0, sum := 0 }
    { sh := { p.sh with tocket := v }, lo := (loopHead k.fast lo).1, pc := (loopHead k.fast lo).2.1,
      trace := p.trace ++ Ev.tocketInit v :: (loopHead k.fast lo).2.2 }
  | PC.fetchOr =>
    let v := t.pre.getD p.sh.atom
    let old := v ||| b.slowbit
    { sh := { p.sh with atom := v ||| b.slowbit }, lo := { p.lo with old := old },
      pc := if old &&& b.valubit ≠ 0 then PC.callFn else PC.atomLoad,
      trace := p.trace ++ [Ev.fetchOr b.slowbit v] }
  | PC.callFn =>
    let r := k.fn p.lo.old t
    { p with
      pc := if r then (if k.fast then PC.atomLoad else PC.tocketLoad) else PC.done false,
      trace := p.trace ++ (if k.fast then [Ev.fence, Ev.fn p.lo.old r] else [Ev.fn p.lo.old r]) }
  | PC.atomLoad =>
    let v := t.pre.getD p.sh.atom
    { sh := { p.sh with atom := v }, lo := { p.lo with old := v },
      pc := if k.fast then PC.tocketLoad else PC.callFn,
      trace := p.trace ++ [Ev.atomLoad v] }
  | PC.tocketLoad =>
    let v := t.pre.getD p.sh.tocket
    let lo : Local := { p.lo with tock := v }
    if v ≠ p.lo.tick then
      { sh := { p.sh with tocket := v }, lo := (loopHead k.fast lo).1, pc := (loopHead k.fast lo).2.1,
        trace := p.trace ++ Ev.tocketLoad v :: (loopHead k.fast lo).2.2 }
    else
      { sh := { p.sh with tocket := v }, lo := (claimHead b k.fast lo).1,
        pc := (claimHead b k.fast lo).2.1,
        trace := p.trace ++ Ev.tocketLoad v :: (claimHead b k.fast lo).2.2 }
  | PC.cas =>
    let cur := t.pre.getD p.sh.atom
    let old := p.lo.old &&& not32 b.lockbit
    let next := add32 (sub32 old p.lo.contbit) b.valubit
    if cur = old ∧ t.spurious = false then
      { sh := { p.sh with atom := next }, lo := { p.lo with old := old }, pc := PC.done true,
        trace := p.trace ++ [Ev.cas old next cur true] }
    else
      let lo : Local := { p.lo with old := cur }
      { sh := { p.sh with atom := cur }, lo := (claimHead b k.fast lo).1,
        pc := (claimHead b k.fast lo).2.1,
        trace := p.trace ++ Ev.cas old next cur false :: (claimHead b k.fast lo).2.2 }
  | PC.addCredit =>
    let cur := t.pre.getD p.sh.atom
    let lo : Local := { p.lo with contbit := b.contbit }
    { sh := { p.sh with atom := add32 cur b.contbit }, lo := (loopHead k.fast lo).1,
      pc := (loopHead k.fast lo).2.1,
      trace := p.trace ++ Ev.fetchAdd b.contbit :: (loopHead k.fast lo).2.2 }
  | PC.done _ => p

/-- The function `details::__binary_semaphore_acquire_slow(atom, ticket, tocket,
stolen, fn)` (lines 160-211) run from the state `p` against the environment. -/
def run (b : BinaryConsts) (k : Config) (p : Proc) (env : List Tick) : Proc :=
  env.foldl (step b k) p

/-- The callback of `binary_semaphore::__acquire_slow` (lines 234-239): it
waits on the word when the fast path is built, and returns `true`. -/
def untimedFn (_old : Nat) (_t : Tick) : Bool := true

/-- The callback of `binary_semaphore::__acquire_slow_timed(rel_time)` (lines
247-254): `abs_time` is `now() + rel_time`, read when the callback is entered;
it waits on the word for at most `rel_time` when the fast path is built, and
returns `now() < abs_time`. -/
def timedFn (rel_time : Int) (_old : Nat) (t : Tick) : Bool :=
  let abs_time := t.now1 + rel_time
  decide (t.now2 < abs_time)

/-- The function `binary_semaphore::__acquire_slow()` (lines 232-241). -/
def acquire_slow (b : BinaryConsts) (fast : Bool) (sh : Shared) (env : List Tick) : Proc :=
  run b ⟨fast, untimedFn⟩ (Proc.init sh) env

/-- The function `binary_semaphore::__acquire_slow_timed(rel_time)` (lines 245-256). -/
def acquire_slow_timed (b : BinaryConsts) (fast : Bool) (rel_time : Int) (sh : Shared)
    (env : List Tick) : Proc :=
  run b ⟨fast, timedFn rel_time⟩ (Proc.init sh) env

/-- What a completed `__release_slow` on the word `w` leaves and did: it
returned, the word is `w` without value, slow and lock bit, and after the
failed attempts `fails` one compare-exchange stored `d`, which carries the lock
bit iff `w` had the slow bit, followed exactly then by fence, wake-all and the
clearing of the lock bit. -/
def ReleaseDone (b : BinaryConsts) (w : Nat) (r : Run Unit) : Prop :=
  r.ret = some () ∧
  r.atom = w &&& not32 (b.valubit ||| b.slowbit ||| b.lockbit) ∧
  ∃ fails d, (∀ x ∈ fails, ∃ e d' s, x = Ev.cas e d' s false) ∧
    (d &&& b.lockbit ≠ 0 ↔ w &&& b.slowbit ≠ 0) ∧
    r.trace = fails ++ Ev.cas w d w true ::
      (if w &&& b.slowbit ≠ 0 then [Ev.fence, Ev.wakeAll, Ev.fetchAnd (not32 b.lockbit)]
       else [])

/-! ## Notions on traces of the ticketed acquire -/

/-- Whether the call is still in an iteration that loaded `tocket == tick`,
after one more event: a `tocket` load decides it afresh, a compare-exchange
attempt keeps it, anything else ends it. -/
def armNext (tick : Nat) (a : Bool) : Ev → Bool
  | Ev.tocketLoad v => decide (v = tick)
  | Ev.cas _ _ _ _ => a
  | _ => false

/-- The trace ends with a `tocket` load that returned `tick`, followed only by
compare-exchange attempts: the call is at the head of the queue. -/
def atHead (tick : Nat) (tr : List Ev) : Bool := tr.foldl (armNext tick) false

/-- The word the call knows after one more event: what `atom.load()` returned
or what a compare-exchange found. -/
def lastNext (w : Nat) : Ev → Nat
  | Ev.atomLoad v => v
  | Ev.cas _ _ s _ => s
  | _ => w

/-- The word most recently returned by `atom.load()` or found by a
compare-exchange (`0` before the first). -/
def lastSeen (tr : List Ev) : Nat := tr.foldl lastNext 0

/-- What is required of an event, given whether the call is at the head of the
queue (`a`) and the word `w` it last saw: at the head it either attempts the
claim, when `w` has the value bit clear, expecting `w` without the lock bit and
storing a word with the value bit set, or leaves the claiming loop, when `w`
has the value bit set; every other event happens away from the head. -/
def evOk (b : BinaryConsts) (a : Bool) (w : Nat) : Ev → Prop
  | Ev.cas e d s ok =>
    a = true ∧ w &&& b.valubit = 0 ∧ e = w &&& not32 b.lockbit ∧ e &&& b.lockbit = 0 ∧
      d &&& b.valubit ≠ 0 ∧ (ok = true → s = e)
  | Ev.headUnavailable => a = true ∧ w &&& b.valubit ≠ 0
  | _ => a = false

/-- Every event of the trace satisfies `evOk`, read from the left. -/
def Guarded (b : BinaryConsts) (tick : Nat) : Bool → Nat → List Ev → Prop
  | _, _, [] => True
  | a, w, e :: es => evOk b a w e ∧ Guarded b tick (armNext tick a e) (lastNext w e) es

/-- The number of `atom.fetch_add`s in a trace. -/
def credits : List Ev → Nat
  | [] => 0
  | Ev.fetchAdd _ :: es => credits es + 1
  | _ :: es => credits es

/-- The invariant of `__binary_semaphore_acquire_slow` behind the ticket rule. -/
structure HeadInv (b : BinaryConsts) (k : Config) (p : Proc) : Prop where
  guarded : Guarded b p.lo.tick false 0 p.trace
  atCas : p.pc = PC.cas → atHead p.lo.tick p.trace = true ∧ p.lo.old &&& b.valubit = 0 ∧
    lastSeen p.trace = p.lo.old
  away : p.pc ≠ PC.cas → p.pc ≠ PC.done true → atHead p.lo.tick p.trace = false
  seen : p.pc = PC.tocketLoad ∨ (p.pc = PC.callFn ∧ k.fast = false) →
    lastSeen p.trace = p.lo.old
  fastOnly : p.pc = PC.fetchOr → k.fast = true
  fresh : p.pc = PC.ticketFetchAdd → p.trace = []
  drawn : p.pc ≠ PC.ticketFetchAdd → p.trace.head? = some (Ev.ticketFetchAdd p.lo.tick)
  cont : p.lo.contbit = 0 ∨ p.lo.contbit = b.contbit
  won : p.pc = PC.done true → ∃ pre e d, p.trace = pre ++ [Ev.cas e d e true]

/-- The invariant of `__binary_semaphore_acquire_slow` behind the credit rule. -/
structure CreditInv (b : BinaryConsts) (p : Proc) : Prop where
  unit : ∀ x ∈ p.trace, ∀ v, x = Ev.fetchAdd v → v = b.contbit
  early : p.pc = PC.ticketFetchAdd ∨ p.pc = PC.tocketInit →
    credits p.trace = 0 ∧ Ev.headUnavailable ∉ p.trace
  pending : p.pc = PC.addCredit →
    p.lo.contbit = 0 ∧ credits p.trace = 0 ∧ Ev.headUnavailable ∈ p.trace
  settled : p.pc ≠ PC.addCredit → p.pc ≠ PC.ticketFetchAdd → p.pc ≠ PC.tocketInit →
    (p.lo.contbit = 0 ∧ credits p.trace = 0 ∧ Ev.headUnavailable ∉ p.trace) ∨
    (p.lo.contbit = b.contbit ∧ credits p.trace = 1 ∧ Ev.headUnavailable ∈ p.trace)
  won : p.pc = PC.done true → ∃ pre e d, p.trace = pre ++ [Ev.cas e d e true] ∧
    d = add32 (sub32 e (credits p.trace * b.contbit)) b.valubit

/-- The states of a timed acquire that entered with `ticket == tocket == t0` on
a word with the value bit set and runs alone: it is at the head of the queue
with nothing slept, the value bit is still set, and `fn` was never called. -/
def Spinning (b : BinaryConsts) (t0 : Nat) (p : Proc) : Prop :=
  p.sh.tocket = t0 ∧ p.sh.atom &&& b.valubit ≠ 0 ∧
  (∀ old res, Ev.fn old res ∉ p.trace) ∧
  ((p.pc = PC.ticketFetchAdd ∧ p.sh.ticket = t0) ∨
   (p.pc = PC.tocketInit ∧ p.lo.tick = t0) ∨
   (p.lo.tick = t0 ∧ p.lo.tock = t0 ∧ p.lo.sum = 0 ∧
      (p.pc = PC.atomLoad ∨ (p.pc = PC.tocketLoad ∧ p.lo.old &&& b.valubit ≠ 0) ∨
        p.pc = PC.addCredit)))

/-! # Theorems

## Word arithmetic -/

theorem two_pow_32 : (4294967296 : Nat) = 2 ^ 32 := by norm_num

theorem not32_testBit (m i : Nat) :
    (not32 m).testBit i = (decide (i < 32) && !m.testBit i) := by
  unfold not32
  have h : (4294967295 : Nat) = 2 ^ 32 - 1 := by norm_num
  rw [Nat.testBit_xor, h, Nat.testBit_two_pow_sub_one, two_pow_32, Nat.testBit_mod_two_pow]
  by_cases hi : i < 32 <;> simp [hi]

theorem not32_lt (m : Nat) : not32 m < 4294967296 := by
  unfold not32
  rw [two_pow_32]
  apply Nat.xor_lt_two_pow
  · norm_num
  · exact Nat.mod_lt _ (by norm_num)

theorem and_not32_lt (x m : Nat) : x &&& not32 m < 4294967296 :=
  lt_of_le_of_lt Nat.and_le_right (not32_lt m)

theorem and_not32_shiftRight {s m : Nat} (hm : m < 2 ^ s) (x : Nat) :
    (x &&& not32 m) >>> s = (x % 4294967296) >>> s := by
  apply Nat.eq_of_testBit_eq
  intro i
  have hb : m.testBit (s + i) = false :=
    Nat.testBit_lt_two_pow (lt_of_lt_of_le hm (Nat.pow_le_pow_right (by norm_num) (by omega)))
  rw [Nat.testBit_shiftRight, Nat.testBit_shiftRight, Nat.testBit_and, not32_testBit,
    two_pow_32, Nat.testBit_mod_two_pow, hb]
  by_cases h : s + i < 32 <;> simp [h]

theorem hi32_and_not32 {s m : Nat} (hm : m < 2 ^ s) (x : Nat) :
    hi32 s (x &&& not32 m) = hi32 s x := by
  unfold hi32
  rw [Nat.mod_eq_of_lt (and_not32_lt x m), ← Nat.shiftRight_eq_div_pow,
    ← Nat.shiftRight_eq_div_pow, and_not32_shiftRight hm]

theorem hi32_lt {s : Nat} (hs : s ≤ 32) (w : Nat) : hi32 s w < 2 ^ (32 - s) := by
  unfold hi32
  rw [Nat.div_lt_iff_lt_mul (by positivity), Nat.pow_sub_mul_pow 2 hs, ← two_pow_32]
  exact Nat.mod_lt _ (by norm_num)

theorem toInt32_eq {s : Nat} (hs : s ≤ 31) (w : Nat) :
    toInt32 w >>> s =
      if hi32 s w < 2 ^ (31 - s) then (hi32 s w : Int)
      else (hi32 s w : Int) - (2 ^ (32 - s) : Nat) := by
  have hP : 0 < 2 ^ s := by positivity
  have h31 : (2147483648 : Nat) = 2 ^ (31 - s) * 2 ^ s := by
    rw [Nat.pow_sub_mul_pow 2 hs]
  have h32 : (4294967296 : Nat) = 2 ^ (32 - s) * 2 ^ s := by
    rw [Nat.pow_sub_mul_pow 2 (by omega)]
  have hlt : w % 4294967296 < 2147483648 ↔ hi32 s w < 2 ^ (31 - s) := by
    unfold hi32
    rw [Nat.div_lt_iff_lt_mul hP, ← h31]
  unfold toInt32
  rw [Int.shiftRight_eq_div_pow]
  by_cases h : w % 4294967296 < 2147483648
  · rw [if_pos h, if_pos (hlt.1 h)]
    unfold hi32
    norm_cast
  · rw [if_neg h, if_neg (fun h' => h (hlt.2 h'))]
    unfold hi32
    have : ((4294967296 : Int)) = ((2 ^ (32 - s) : Nat) : Int) * ((2 ^ s : Nat) : Int) := by
      exact_mod_cast h32
    have hne : ((2 ^ s : Nat) : Int) ≠ 0 := by positivity
    rw [this, sub_eq_add_neg, ← neg_mul, Int.add_mul_ediv_right _ _ hne]
    push_cast
    ring

theorem count_eq (c : CountingConsts) (hs : c.shift ≤ 31) (w : Nat) :
    c.count w =
      if hi32 c.shift w < 2 ^ (31 - c.shift) then (hi32 c.shift w : Int)
      else (hi32 c.shift w : Int) - (2 ^ (32 - c.shift) : Nat) :=
  toInt32_eq hs w



theorem shl32_one {s : Nat} (hs : s ≤ 31) : shl32 1 s = 2 ^ s := by
  unfold shl32
  rw [Nat.shiftLeft_eq, one_mul]
  apply Nat.mod_eq_of_lt
  calc 2 ^ s ≤ 2 ^ 31 := Nat.pow_le_pow_right (by norm_num) hs
    _ < 4294967296 := by norm_num

theorem count_and_not32 (c : CountingConsts) (hc : c.WF) (x : Nat) :
    c.count (x &&& not32 c.lockmask) = c.count x := by
  obtain ⟨hs, _, _, hl, _⟩ := hc
  rw [count_eq c (by omega), count_eq c (by omega), hi32_and_not32 hl]

/-- One unit is taken from a positive count without touching the sign. -/
theorem count_sub_unit (c : CountingConsts) (hc : c.WF) (e : Nat) (he : e < 4294967296)
    (h1 : 1 ≤ c.count e) :
    c.count (sub32 e (shl32 1 c.shift)) = c.count e - 1 := by
  obtain ⟨hs, _⟩ := hc
  have hP : 0 < 2 ^ c.shift := by positivity
  have hP30 : 2 ^ c.shift ≤ 2 ^ 30 := Nat.pow_le_pow_right (by norm_num) hs
  have hM : 2 ^ (32 - c.shift) = 2 * 2 ^ (31 - c.shift) := by
    rw [← pow_succ']; congr 1; omega
  have hlt := hi32_lt (show c.shift ≤ 32 by omega) e
  rw [count_eq c (by omega)] at h1 ⊢
  rw [count_eq c (by omega)]
  have hhi : hi32 c.shift e = e / 2 ^ c.shift := by
    unfold hi32; rw [Nat.mod_eq_of_lt he]
  by_cases hH : hi32 c.shift e < 2 ^ (31 - c.shift)
  · rw [if_pos hH] at h1 ⊢
    have hge : 2 ^ c.shift ≤ e := by
      by_contra hcon
      rw [hhi, Nat.div_eq_of_lt (by omega)] at h1
      simp at h1
    have hd : sub32 e (shl32 1 c.shift) = e - 2 ^ c.shift := by
      rw [shl32_one (by omega)]
      unfold sub32
      norm_num at hP30
      omega
    have hhd : hi32 c.shift (e - 2 ^ c.shift) = hi32 c.shift e - 1 := by
      unfold hi32
      rw [Nat.mod_eq_of_lt he, Nat.mod_eq_of_lt (by omega)]
      have := Nat.div_eq_sub_div hP hge
      omega
    rw [hd, hhd, if_pos (by omega)]
    have : 1 ≤ hi32 c.shift e := by exact_mod_cast h1
    omega
  · rw [if_neg hH] at h1
    exfalso
    have : (hi32 c.shift e : Int) < ((2 ^ (32 - c.shift) : Nat) : Int) := by exact_mod_cast hlt
    omega

/-- Claim C1 as amended: when the `old` handed to `__fetch_sub_if_slow` has a
count field of at least one, then under every environment every committing
compare-exchange replaces a word whose count field is at least one by a word
whose count field is exactly one less; the call returns `true` only after such
a commit, and otherwise commits nothing. -/
theorem fetch_sub_if_slow_commits (c : CountingConsts) (hc : c.WF) (env : List Tick)
    (atom old : Nat) (hold : 1 ≤ c.count old) :
    (∀ e d s, Ev.cas e d s true ∈ (fetch_sub_if_slow c atom old env).trace →
        s = e ∧ 1 ≤ c.count s ∧ c.count d = c.count s - 1) ∧
    ((fetch_sub_if_slow c atom old env).ret = some true →
        ∃ e d, Ev.cas e d e true ∈ (fetch_sub_if_slow c atom old env).trace ∧
          (fetch_sub_if_slow c atom old env).atom = d) ∧
    ((fetch_sub_if_slow c atom old env).ret ≠ some true →
        ∀ e d s, Ev.cas e d s true ∉ (fetch_sub_if_slow c atom old env).trace) := by
  induction env generalizing atom old with
  | nil => simp [fetch_sub_if_slow]
  | cons t ts ih =>
    simp only [fetch_sub_if_slow]
    by_cases hcas : t.pre.getD atom = old &&& not32 c.lockmask ∧ t.spurious = false
    · rw [if_pos hcas]
      have h1 : 1 ≤ c.count (old &&& not32 c.lockmask) := by
        rw [count_and_not32 c hc]; exact hold
      refine ⟨?_, ?_, ?_⟩
      · intro e d s hmem
        simp only [List.mem_singleton, Ev.cas.injEq] at hmem
        obtain ⟨rfl, rfl, rfl, _⟩ := hmem
        exact ⟨hcas.1, by rw [hcas.1]; exact h1,
          by rw [hcas.1]; exact count_sub_unit c hc _ (and_not32_lt _ _) h1⟩
      · intro _
        exact ⟨old &&& not32 c.lockmask, _, by simp [hcas.1], rfl⟩
      · intro h; simp at h
    · rw [if_neg hcas]
      by_cases hcnt : 1 ≤ c.count (t.pre.getD atom)
      · rw [if_pos hcnt]
        obtain ⟨ih1, ih2, ih3⟩ := ih (t.pre.getD atom) (t.pre.getD atom) hcnt
        refine ⟨?_, ?_, ?_⟩
        · intro e d s hmem
          simp only [List.mem_cons, Ev.cas.injEq] at hmem
          rcases hmem with h | h
          · simp at h
          · exact ih1 e d s h
        · intro hr
          obtain ⟨e, d, hm, ha⟩ := ih2 hr
          exact ⟨e, d, List.mem_cons_of_mem _ hm, ha⟩
        · intro hr e d s hmem
          simp only [List.mem_cons, Ev.cas.injEq] at hmem
          rcases hmem with h | h
          · simp at h
          · exact ih3 hr e d s h
      · rw [if_neg hcnt]
        simp

/-- Claim C1 refuted as stated: handed `old = 0` while the word is `0`, the
first compare-exchange of `__fetch_sub_if_slow` is not guarded by the count
test; it commits against a count field of `0`, the call returns `true`, and the
count field of the word becomes `-1`. -/
theorem fetch_sub_if_slow_decrements_zero :
    CountingConsts.std.WF ∧
    fetch_sub_if_slow CountingConsts.std 0 0 [Tick.calm] =
      ⟨4294967292, [Ev.cas 0 4294967292 0 true], some true⟩ ∧
    CountingConsts.std.count 0 = 0 ∧ ¬ (1 ≤ CountingConsts.std.count 0) ∧
    CountingConsts.std.count 4294967292 = -1 := by
  decide

/-- The amended claim C1 applied to the word `4` (count field `1`): the commit
replaces the word `4` by `0`, and the call returns `true`. -/
theorem fetch_sub_if_slow_commits_witness :
    (4 = 4 ∧ 1 ≤ CountingConsts.std.count 4 ∧
      CountingConsts.std.count 0 = CountingConsts.std.count 4 - 1) ∧
    ∃ e d, Ev.cas e d e true ∈ (fetch_sub_if_slow CountingConsts.std 4 4 [Tick.calm]).trace ∧
      (fetch_sub_if_slow CountingConsts.std 4 4 [Tick.calm]).atom = d :=
  ⟨(fetch_sub_if_slow_commits CountingConsts.std (by decide) [Tick.calm] 4 4 (by decide)).1
      4 0 4 (by decide),
   (fetch_sub_if_slow_commits CountingConsts.std (by decide) [Tick.calm] 4 4 (by decide)).2.1
      (by decide)⟩

/-! ## The wait table -/

/-- Claim C8: both overloads of `__atomic_wait_table_index` return
`(a >> 6) & 1023 = (a / 64) % 1024`, which is below the table's entry count
(so `__from_ptr` stays inside the table), and two addresses of the same
64-byte block get the same bucket. -/
theorem atomic_wait_table_index_spec (a : Nat) :
    atomic_wait_table_index a = atomic_wait_table_index_volatile a ∧
    atomic_wait_table_index a = (a >>> 6) &&& 1023 ∧
    atomic_wait_table_index a = (a / 64) % 1024 ∧
    atomic_wait_table_index a < atomic_wait_table_entry_count ∧
    from_ptr a < atomic_wait_table_entry_count ∧
    ∀ b, a / 64 = b / 64 → atomic_wait_table_index a = atomic_wait_table_index b := by
  have key : ∀ x, atomic_wait_table_index x = (x / 64) % 1024 := by
    intro x
    unfold atomic_wait_table_index atomic_wait_table_entry_count
    have h : (1024 - 1 : Nat) = 2 ^ 10 - 1 := by norm_num
    rw [h, Nat.and_pow_two_sub_one_eq_mod, Nat.shiftRight_eq_div_pow]
  refine ⟨rfl, rfl, key a, ?_, ?_, ?_⟩
  · rw [key a]; unfold atomic_wait_table_entry_count; exact Nat.mod_lt _ (by norm_num)
  · unfold from_ptr; rw [key a]; unfold atomic_wait_table_entry_count
    exact Nat.mod_lt _ (by norm_num)
  · intro b hb; rw [key a, key b, hb]

/-- Claim C8 applied to the addresses `130` and `190` of one 64-byte block. -/
theorem atomic_wait_table_index_spec_witness :
    atomic_wait_table_index 130 = atomic_wait_table_index 190 :=
  (atomic_wait_table_index_spec 130).2.2.2.2.2 190 (by decide)

/-! ## The counting word -/

theorem testBit_of_lt_two_pow {m s i : Nat} (hm : m < 2 ^ s) (hi : m.testBit i = true) : i < s := by
  by_contra h
  have : m.testBit i = false :=
    Nat.testBit_lt_two_pow (lt_of_lt_of_le hm (Nat.pow_le_pow_right (by norm_num) (by omega)))
  rw [this] at hi
  exact Bool.noConfusion hi

theorem and_valumask {s : Nat} (hs : s ≤ 32) (x : Nat) :
    x &&& (4294967296 - 2 ^ s) = 2 ^ s * hi32 s x := by
  have hv : 4294967296 - 2 ^ s = 2 ^ s * (2 ^ (32 - s) - 1) := by
    rw [Nat.mul_sub, mul_one, mul_comm, Nat.pow_sub_mul_pow 2 hs]
  apply Nat.eq_of_testBit_eq
  intro j
  unfold hi32
  rw [Nat.testBit_and, hv, Nat.testBit_mul_pow_two, Nat.testBit_mul_pow_two,
    Nat.testBit_two_pow_sub_one, ← Nat.shiftRight_eq_div_pow, Nat.testBit_shiftRight,
    two_pow_32, Nat.testBit_mod_two_pow]
  by_cases h1 : j ≥ s
  · have : s + (j - s) = j := by omega
    rw [this]
    by_cases h2 : j < 32
    · have h3 : j - s < 32 - s := by omega
      simp [h1, h2, h3]
    · have h3 : ¬ (j - s < 32 - s) := by omega
      simp [h1, h2, h3]
  · simp [h1]

theorem fetch_add_word (c : CountingConsts) (hc : c.WF) (old term : Nat) :
    add32 (old &&& c.valumask) (shl32 term c.shift) =
      2 ^ c.shift * ((hi32 c.shift old + term) % 2 ^ (32 - c.shift)) := by
  obtain ⟨hs, hv, _⟩ := hc
  have h32 : (4294967296 : Nat) = 2 ^ (32 - c.shift) * 2 ^ c.shift := by
    rw [Nat.pow_sub_mul_pow 2 (by omega)]
  rw [hv, and_valumask (by omega)]
  unfold add32 shl32
  rw [Nat.add_mod_mod, Nat.shiftLeft_eq, mul_comm (2 ^ c.shift) (hi32 c.shift old), ← Nat.add_mul]
  conv_lhs => rw [h32]
  rw [Nat.mul_mod_mul_right, mul_comm]

theorem hi32_mul_add {s k m : Nat} (hs : s ≤ 32) (hk : k < 2 ^ (32 - s)) (hm : m < 2 ^ s) :
    2 ^ s * k + m < 4294967296 ∧ hi32 s (2 ^ s * k + m) = k := by
  have h32 : (4294967296 : Nat) = 2 ^ s * 2 ^ (32 - s) := by
    rw [mul_comm, Nat.pow_sub_mul_pow 2 hs]
  have hlt : 2 ^ s * k + m < 4294967296 := by
    rw [h32]
    calc 2 ^ s * k + m < 2 ^ s * k + 2 ^ s := by omega
      _ = 2 ^ s * (k + 1) := by ring
      _ ≤ 2 ^ s * 2 ^ (32 - s) := Nat.mul_le_mul_left _ hk
  refine ⟨hlt, ?_⟩
  unfold hi32
  rw [Nat.mod_eq_of_lt hlt, Nat.mul_add_div (by positivity), Nat.div_eq_of_lt hm, add_zero]

theorem mul_two_pow_and {s m : Nat} (hm : m < 2 ^ s) (k : Nat) : 2 ^ s * k &&& m = 0 := by
  apply Nat.eq_of_testBit_eq
  intro j
  rw [Nat.testBit_and, Nat.testBit_mul_pow_two, Nat.zero_testBit]
  by_cases h : m.testBit j = true
  · have := testBit_of_lt_two_pow hm h
    have h' : ¬ (j ≥ s) := by omega
    simp [h']
  · simp [h]

theorem mul_two_pow_or_and {s m : Nat} (hm : m < 2 ^ s) (k : Nat) :
    (2 ^ s * k ||| m) &&& m = m := by
  rw [Nat.and_distrib_right, mul_two_pow_and hm, Nat.and_self, Nat.zero_or]

theorem and_not32_and {m n : Nat} (hn : n < 4294967296) (hmn : m &&& n = 0) (x : Nat) :
    (x &&& not32 m) &&& n = x &&& n := by
  apply Nat.eq_of_testBit_eq
  intro j
  rw [Nat.testBit_and, Nat.testBit_and, Nat.testBit_and, not32_testBit]
  by_cases h : n.testBit j = true
  · have hj : j < 32 := testBit_of_lt_two_pow (by rw [← two_pow_32]; exact hn) h
    have hm : m.testBit j = false := by
      have := congrArg (fun z => Nat.testBit z j) hmn
      simp only [Nat.testBit_and, Nat.zero_testBit, h, Bool.and_true] at this
      exact this
    simp [hj, hm]
  · simp [h]

/-- The word `__fetch_add_slow` offers to its compare-exchange carries the lock
mask exactly when `apply_lock` holds, and `apply_lock` is decided by the
contention mask of the expected word. -/
theorem fetch_add_set_lock (c : CountingConsts) (hc : c.WF) (old term : Nat) (notify : Notify) :
    ((add32 (old &&& c.valumask) (shl32 term c.shift) |||
        (if ((old &&& c.contmask != 0) && (notify != Notify.none)) = true then c.lockmask else 0))
        &&& c.lockmask ≠ 0 ↔
      ((old &&& c.contmask != 0) && (notify != Notify.none)) = true) ∧
    (((old &&& c.contmask != 0) && (notify != Notify.none)) = true ↔
      ((old &&& not32 c.lockmask) &&& c.contmask ≠ 0 ∧ notify ≠ Notify.none)) := by
  have hw := fetch_add_word c hc old term
  obtain ⟨hs, hv, hl0, hl, hc0, hcm, hlc⟩ := hc
  have hcm32 : c.contmask < 4294967296 := by
    calc c.contmask < 2 ^ c.shift := hcm
      _ ≤ 2 ^ 30 := Nat.pow_le_pow_right (by norm_num) hs
      _ < 4294967296 := by norm_num
  constructor
  · rw [hw]
    by_cases h : ((old &&& c.contmask != 0) && (notify != Notify.none)) = true
    · rw [if_pos h, mul_two_pow_or_and hl]
      simp only [h, iff_true]
      omega
    · rw [if_neg h, Nat.or_zero, mul_two_pow_and hl]
      simp [h]
  · rw [and_not32_and hcm32 hlc]
    simp

/-- Claim C4: in every run of `__fetch_add_slow` the trace is a series of failed
compare-exchanges followed, if the call got that far, by one successful one;
the committed word carries the lock mask exactly when the replaced word had the
contention mask and `notify` is not `none`; exactly then the wake selected by
`notify` follows (wake-one for `one`, wake-all for `all`) and after it the
`fetch_and` that clears the lock mask, so that the word the call leaves has the
lock mask clear; otherwise nothing follows the compare-exchange. -/
theorem fetch_add_slow_wake (c : CountingConsts) (hc : c.WF) (term : Nat) (notify : Notify)
    (env : List Tick) (atom old : Nat) :
    (∃ fails : List Ev, (∀ x ∈ fails, ∃ e d s, x = Ev.cas e d s false) ∧
      (((fetch_add_slow c term notify atom old env).trace = fails ∧
          (fetch_add_slow c term notify atom old env).ret = none) ∨
        ∃ e d, (d &&& c.lockmask ≠ 0 ↔ (e &&& c.contmask ≠ 0 ∧ notify ≠ Notify.none)) ∧
          ((¬ (e &&& c.contmask ≠ 0 ∧ notify ≠ Notify.none) ∧
              (fetch_add_slow c term notify atom old env).trace = fails ++ [Ev.cas e d e true] ∧
              (fetch_add_slow c term notify atom old env).ret = some () ∧
              (fetch_add_slow c term notify atom old env).atom = d) ∨
            ((e &&& c.contmask ≠ 0 ∧ notify ≠ Notify.none) ∧
              (fetch_add_slow c term notify atom old env).trace =
                fails ++ Ev.cas e d e true :: wakeOf notify ∧
              (fetch_add_slow c term notify atom old env).ret = none) ∨
            ((e &&& c.contmask ≠ 0 ∧ notify ≠ Notify.none) ∧
              (fetch_add_slow c term notify atom old env).trace =
                fails ++ Ev.cas e d e true ::
                  (wakeOf notify ++ [Ev.fetchAnd (not32 c.lockmask)]) ∧
              (fetch_add_slow c term notify atom old env).ret = some () ∧
              (fetch_add_slow c term notify atom old env).atom &&& c.lockmask = 0)))) ∧
    wakeOf Notify.one = [Ev.wakeOne] ∧ wakeOf Notify.all = [Ev.wakeAll] ∧
    wakeOf Notify.none = [] := by
  refine ⟨?_, rfl, rfl, rfl⟩
  induction env generalizing atom old with
  | nil => exact ⟨[], by simp, Or.inl ⟨rfl, rfl⟩⟩
  | cons t ts ih =>
    obtain ⟨hset, happ⟩ := fetch_add_set_lock c hc old term notify
    simp only [fetch_add_slow]
    by_cases hcas : t.pre.getD atom = old &&& not32 c.lockmask ∧ t.spurious = false
    · rw [if_pos hcas]
      refine ⟨[], by simp, Or.inr ⟨old &&& not32 c.lockmask, _, hset.trans happ, ?_⟩⟩
      by_cases hap : ((old &&& c.contmask != 0) && (notify != Notify.none)) = true
      · rw [if_pos hap]
        cases ts with
        | nil => exact Or.inr (Or.inl ⟨happ.1 hap, by simp [hcas.1], rfl⟩)
        | cons t' ts' =>
          refine Or.inr (Or.inr ⟨happ.1 hap, by simp [hcas.1], rfl, ?_⟩)
          show (_ &&& not32 c.lockmask) &&& c.lockmask = 0
          apply Nat.eq_of_testBit_eq
          intro j
          rw [Nat.testBit_and, Nat.testBit_and, not32_testBit, Nat.zero_testBit]
          cases c.lockmask.testBit j <;> simp
      · rw [if_neg hap]
        exact Or.inl ⟨fun h => hap (happ.2 h), by simp [hcas.1], rfl, rfl⟩
    · rw [if_neg hcas]
      obtain ⟨fails, hf, hrest⟩ := ih (t.pre.getD atom) (t.pre.getD atom)
      refine ⟨Ev.cas (old &&& not32 c.lockmask)
        (add32 (old &&& c.valumask) (shl32 term c.shift) |||
          (if ((old &&& c.contmask != 0) && (notify != Notify.none)) = true then c.lockmask else 0))
        (t.pre.getD atom) false :: fails, ?_, ?_⟩
      · intro x hx
        rcases List.mem_cons.1 hx with h | h
        · exact ⟨_, _, _, h⟩
        · exact hf x h
      · rcases hrest with ⟨h1, h2⟩ | ⟨e, d, hd, h⟩
        · exact Or.inl ⟨by simp [h1], h2⟩
        · refine Or.inr ⟨e, d, hd, ?_⟩
          rcases h with ⟨a, b, r, s⟩ | ⟨a, b, r⟩ | ⟨a, b, r, s⟩
          · exact Or.inl ⟨a, by simp [b], r, s⟩
          · exact Or.inr (Or.inl ⟨a, by simp [b], r⟩)
          · exact Or.inr (Or.inr ⟨a, by simp [b], r, s⟩)

/-! ## Counting semaphore without interference -/

theorem and_not32_self {w m : Nat} (hw : w < 4294967296) (hwm : w &&& m = 0) :
    w &&& not32 m = w := by
  apply Nat.eq_of_testBit_eq
  intro j
  rw [Nat.testBit_and, not32_testBit]
  by_cases h : w.testBit j = true
  · have hj : j < 32 := testBit_of_lt_two_pow (by rw [← two_pow_32]; exact hw) h
    have hm : m.testBit j = false := by
      have := congrArg (fun z => Nat.testBit z j) hwm
      simp only [Nat.testBit_and, Nat.zero_testBit, h, Bool.true_and] at this
      exact this
    simp [hj, hm]
  · simp [h]

theorem and_not32_and_self (x m : Nat) : (x &&& not32 m) &&& m = 0 := by
  apply Nat.eq_of_testBit_eq
  intro j
  rw [Nat.testBit_and, Nat.testBit_and, not32_testBit, Nat.zero_testBit]
  cases m.testBit j <;> simp

theorem fetch_add_slow_hit (c : CountingConsts) (hc : c.WF) (n : Nat) (notify : Notify)
    (w old : Nat) (t t' : Tick) (ts : List Tick)
    (hold : old &&& not32 c.lockmask = w) (ht : t.pre = none) (hsp : t.spurious = false)
    (ht' : t'.pre = none) :
    AddDone c w n (fetch_add_slow c n notify w old (t :: t' :: ts)) := by
  have hword := fetch_add_word c hc old n
  obtain ⟨hs, hv, hl0, hl, hc0, hcm, hlc⟩ := hc
  have hk : (hi32 c.shift old + n) % 2 ^ (32 - c.shift) < 2 ^ (32 - c.shift) :=
    Nat.mod_lt _ (by positivity)
  have hhi : hi32 c.shift old = hi32 c.shift w := by rw [← hold, hi32_and_not32 hl]
  simp only [fetch_add_slow, ht, ht', Option.getD_none, hold, hsp, and_self, if_true]
  rw [hword]
  by_cases hap : ((old &&& c.contmask != 0) && (notify != Notify.none)) = true
  · simp only [hap, if_true]
    have hor := (Nat.mul_add_lt_is_or hl ((hi32 c.shift old + n) % 2 ^ (32 - c.shift))).symm
    obtain ⟨hlt, hh⟩ := hi32_mul_add (show c.shift ≤ 32 by omega) hk hl
    refine ⟨rfl, and_not32_lt _ _, and_not32_and_self _ _, ?_⟩
    show hi32 c.shift (_ &&& not32 c.lockmask) = _
    rw [hi32_and_not32 hl, hor, hh, hhi]
  · simp only [hap, Bool.false_eq_true, if_false, Nat.or_zero]
    obtain ⟨hlt, hh⟩ := hi32_mul_add (show c.shift ≤ 32 by omega) hk (show 0 < 2 ^ c.shift by positivity)
    rw [add_zero] at hlt hh
    exact ⟨rfl, hlt, mul_two_pow_and hl _, by rw [hh, hhi]⟩

theorem fetch_add_slow_fair (c : CountingConsts) (hc : c.WF) (n : Nat) (notify : Notify)
    (w : Nat) (hw : w < 4294967296) (hlock : w &&& c.lockmask = 0) (sp : List Bool) (old : Nat) :
    AddDone c w n (fetch_add_slow c n notify w old (fair sp)) := by
  have hfix : w &&& not32 c.lockmask = w := and_not32_self hw hlock
  have miss : ∀ (old : Nat) (t : Tick) (ts : List Tick), t.pre = none →
      ¬ (w = old &&& not32 c.lockmask ∧ t.spurious = false) →
      AddDone c w n (fetch_add_slow c n notify w w ts) →
      AddDone c w n (fetch_add_slow c n notify w old (t :: ts)) := by
    intro old t ts ht hmiss hrec
    simp only [fetch_add_slow, ht, Option.getD_none, if_neg hmiss]
    exact hrec
  induction sp generalizing old with
  | nil =>
    by_cases h : w = old &&& not32 c.lockmask
    · exact fetch_add_slow_hit c hc n notify w old _ _ _ h.symm rfl rfl rfl
    · exact miss old _ _ rfl (fun h' => h h'.1)
        (fetch_add_slow_hit c hc n notify w w _ _ _ hfix rfl rfl rfl)
  | cons b sp ih =>
    by_cases h : w = old &&& not32 c.lockmask ∧ b = false
    · cases sp with
      | nil => exact fetch_add_slow_hit c hc n notify w old _ _ _ h.1.symm rfl h.2 rfl
      | cons b' sp' => exact fetch_add_slow_hit c hc n notify w old _ _ _ h.1.symm rfl h.2 rfl
    · exact miss old (Tick.solo b) (fair sp) rfl h (ih w)

theorem mul_add_and {s m r : Nat} (hm : m < 2 ^ s) (hr : r < 2 ^ s) (k : Nat) :
    (2 ^ s * k + r) &&& m = r &&& m := by
  rw [Nat.mul_add_lt_is_or hr, Nat.and_distrib_right, mul_two_pow_and hm, Nat.zero_or]

theorem sub32_unit {s : Nat} (hs : s ≤ 31) {w : Nat} (hw : w < 4294967296) :
    sub32 w (shl32 1 s) =
      2 ^ s * ((hi32 s w + (2 ^ (32 - s) - 1)) % 2 ^ (32 - s)) + w % 2 ^ s := by
  have hP : 0 < 2 ^ s := by positivity
  have hM : 0 < 2 ^ (32 - s) := by positivity
  have h32 : (4294967296 : Nat) = 2 ^ s * 2 ^ (32 - s) := by
    rw [mul_comm, Nat.pow_sub_mul_pow 2 (by omega)]
  have hhi : hi32 s w = w / 2 ^ s := by unfold hi32; rw [Nat.mod_eq_of_lt hw]
  have hPlt : 2 ^ s < 4294967296 := by
    calc 2 ^ s ≤ 2 ^ 31 := Nat.pow_le_pow_right (by norm_num) hs
      _ < 4294967296 := by norm_num
  rw [shl32_one hs]
  unfold sub32
  rw [Nat.mod_eq_of_lt hPlt, hhi]
  have hx : w + (4294967296 - 2 ^ s) =
      2 ^ s * (w / 2 ^ s + (2 ^ (32 - s) - 1)) + w % 2 ^ s := by
    have h1 := Nat.div_add_mod w (2 ^ s)
    have h2 : 2 ^ s * (2 ^ (32 - s) - 1) = 4294967296 - 2 ^ s := by
      rw [Nat.mul_sub, mul_one, ← h32]
    rw [Nat.mul_add, h2]
    omega
  rw [hx]
  conv_lhs => rw [h32]
  rw [Nat.mod_mul, Nat.mul_add_mod, Nat.mod_eq_of_lt (Nat.mod_lt _ hP),
    Nat.mul_add_div hP, Nat.div_eq_of_lt (Nat.mod_lt _ hP), add_zero, add_comm]

theorem fetch_sub_if_slow_hit (c : CountingConsts) (hc : c.WF) (w old : Nat) (t : Tick)
    (ts : List Tick) (hw : w < 4294967296) (hlock : w &&& c.lockmask = 0)
    (hold : old &&& not32 c.lockmask = w) (ht : t.pre = none) (hsp : t.spurious = false) :
    SubDone c w (fetch_sub_if_slow c w old (t :: ts)) := by
  obtain ⟨hs, hv, hl0, hl, hc0, hcm, hlc⟩ := hc
  have hP : 0 < 2 ^ c.shift := by positivity
  simp only [fetch_sub_if_slow, ht, Option.getD_none, hold, hsp, and_self, if_true]
  rw [sub32_unit (show c.shift ≤ 31 by omega) hw]
  obtain ⟨hlt, hh⟩ := hi32_mul_add (show c.shift ≤ 32 by omega)
    (Nat.mod_lt (hi32 c.shift w + (2 ^ (32 - c.shift) - 1)) (show 0 < 2 ^ (32 - c.shift) by positivity))
    (Nat.mod_lt w hP)
  refine ⟨true, rfl, hlt, ?_, fun _ => hh, fun h => Bool.noConfusion h⟩
  show (_ + _) &&& c.lockmask = 0
  rw [mul_add_and hl (Nat.mod_lt w hP)]
  have := mul_add_and hl (Nat.mod_lt w hP) (w / 2 ^ c.shift)
  rw [Nat.div_add_mod] at this
  rw [← this, hlock]

theorem fetch_sub_if_slow_fair (c : CountingConsts) (hc : c.WF)
    (w : Nat) (hw : w < 4294967296) (hlock : w &&& c.lockmask = 0) (sp : List Bool) (old : Nat) :
    SubDone c w (fetch_sub_if_slow c w old (fair sp)) := by
  have hfix : w &&& not32 c.lockmask = w := and_not32_self hw hlock
  have miss : ∀ (old : Nat) (t : Tick) (ts : List Tick), t.pre = none →
      ¬ (w = old &&& not32 c.lockmask ∧ t.spurious = false) →
      SubDone c w (fetch_sub_if_slow c w w ts) →
      SubDone c w (fetch_sub_if_slow c w old (t :: ts)) := by
    intro old t ts ht hmiss hrec
    simp only [fetch_sub_if_slow, ht, Option.getD_none, if_neg hmiss]
    by_cases hcnt : 1 ≤ c.count w
    · rw [if_pos hcnt]; exact hrec
    · rw [if_neg hcnt]; exact ⟨false, rfl, hw, hlock, fun h => Bool.noConfusion h, fun _ => rfl⟩
  induction sp generalizing old with
  | nil =>
    by_cases h : w = old &&& not32 c.lockmask
    · exact fetch_sub_if_slow_hit c hc w old _ _ hw hlock h.symm rfl rfl
    · exact miss old _ _ rfl (fun h' => h h'.1)
        (fetch_sub_if_slow_hit c hc w w _ _ hw hlock hfix rfl rfl)
  | cons b sp ih =>
    by_cases h : w = old &&& not32 c.lockmask ∧ b = false
    · exact fetch_sub_if_slow_hit c hc w old _ _ hw hlock h.1.symm rfl h.2
    · exact miss old (Tick.solo b) (fair sp) rfl h (ih w)

theorem two_pow_field {s : Nat} (hs : s ≤ 31) :
    ((2 ^ (32 - s) : Nat) : Int) = 2 * ((2 ^ (31 - s) : Nat) : Int) := by
  have : 32 - s = (31 - s) + 1 := by omega
  rw [this, pow_succ]
  push_cast
  ring

theorem count_bounds (c : CountingConsts) (hs : c.shift ≤ 31) (x : Nat) :
    -((2 ^ (31 - c.shift) : Nat) : Int) ≤ c.count x ∧
      c.count x < ((2 ^ (31 - c.shift) : Nat) : Int) := by
  have hM := two_pow_field hs
  have hlt : (hi32 c.shift x : Int) < ((2 ^ (32 - c.shift) : Nat) : Int) := by
    exact_mod_cast hi32_lt (show c.shift ≤ 32 by omega) x
  rw [count_eq c hs]
  by_cases h : hi32 c.shift x < 2 ^ (31 - c.shift)
  · rw [if_pos h]
    have : (hi32 c.shift x : Int) < ((2 ^ (31 - c.shift) : Nat) : Int) := by exact_mod_cast h
    omega
  · rw [if_neg h]
    have : ((2 ^ (31 - c.shift) : Nat) : Int) ≤ (hi32 c.shift x : Int) := by
      exact_mod_cast Nat.le_of_not_lt h
    omega

theorem count_modEq (c : CountingConsts) (hs : c.shift ≤ 31) (x : Nat) :
    c.count x ≡ (hi32 c.shift x : Int) [ZMOD ((2 ^ (32 - c.shift) : Nat) : Int)] := by
  rw [count_eq c hs]
  by_cases h : hi32 c.shift x < 2 ^ (31 - c.shift)
  · rw [if_pos h]
  · rw [if_neg h]
    exact Int.modEq_iff_dvd.2 ⟨1, by ring⟩

theorem eq_of_modEq_of_bounds {M H x y : Int} (hM : M = 2 * H) (h : x ≡ y [ZMOD M])
    (hx1 : -H ≤ x) (hx2 : x < H) (hy1 : -H ≤ y) (hy2 : y < H) : x = y := by
  have hd : M ∣ y - x := h.dvd
  have habs : |y - x| < M := by
    rw [abs_lt]; constructor <;> omega
  have := Int.eq_zero_of_abs_lt_dvd hd habs
  omega

theorem natCast_mod_modEq (a M : Nat) : (((a % M : Nat)) : Int) ≡ (a : Int) [ZMOD (M : Int)] := by
  rw [Int.natCast_mod]
  exact Int.mod_modEq _ _

theorem addDone_count_modEq {c : CountingConsts} (hc : c.WF) {w n : Nat} {r : Run Unit}
    (h : AddDone c w n r) :
    c.count r.atom ≡ c.count w + n [ZMOD ((2 ^ (32 - c.shift) : Nat) : Int)] := by
  have hs : c.shift ≤ 31 := by have := hc.1; omega
  obtain ⟨_, _, _, hh⟩ := h
  calc c.count r.atom ≡ (hi32 c.shift r.atom : Int) [ZMOD ((2 ^ (32 - c.shift) : Nat) : Int)] := count_modEq c hs _
    _ = (((hi32 c.shift w + n) % 2 ^ (32 - c.shift) : Nat) : Int) := by rw [hh]
    _ ≡ ((hi32 c.shift w + n : Nat) : Int) [ZMOD ((2 ^ (32 - c.shift) : Nat) : Int)] := natCast_mod_modEq _ _
    _ = (hi32 c.shift w : Int) + n := by push_cast; ring
    _ ≡ c.count w + n [ZMOD ((2 ^ (32 - c.shift) : Nat) : Int)] := ((count_modEq c hs w).symm).add_right _

theorem subDone_count_modEq {c : CountingConsts} (hc : c.WF) {w : Nat} {r : Run Bool}
    (h : r.ret = some true) (hd : SubDone c w r) :
    c.count r.atom ≡ c.count w - 1 [ZMOD ((2 ^ (32 - c.shift) : Nat) : Int)] := by
  have hs : c.shift ≤ 31 := by have := hc.1; omega
  obtain ⟨b, hb, _, _, hh, _⟩ := hd
  rw [h] at hb
  have hbt : b = true := by injection hb with hb; exact hb.symm
  have hM : 1 ≤ 2 ^ (32 - c.shift) := Nat.one_le_two_pow
  calc c.count r.atom ≡ (hi32 c.shift r.atom : Int) [ZMOD ((2 ^ (32 - c.shift) : Nat) : Int)] := count_modEq c hs _
    _ = (((hi32 c.shift w + (2 ^ (32 - c.shift) - 1)) % 2 ^ (32 - c.shift) : Nat) : Int) := by
        rw [hh hbt]
    _ ≡ ((hi32 c.shift w + (2 ^ (32 - c.shift) - 1) : Nat) : Int) [ZMOD ((2 ^ (32 - c.shift) : Nat) : Int)] :=
        natCast_mod_modEq _ _
    _ = ((hi32 c.shift w : Int) - 1) + ((2 ^ (32 - c.shift) : Nat) : Int) := by
        push_cast [Nat.cast_sub hM]; ring
    _ ≡ (hi32 c.shift w : Int) - 1 [ZMOD ((2 ^ (32 - c.shift) : Nat) : Int)] := Int.add_modEq_right
    _ ≡ c.count w - 1 [ZMOD ((2 ^ (32 - c.shift) : Nat) : Int)] := ((count_modEq c hs w).symm).sub_right _

theorem runOps_modEq (c : CountingConsts) (hc : c.WF) (ops : List Op) (w : Nat)
    (hw : w < 4294967296) (hlock : w &&& c.lockmask = 0) :
    ∃ a A, runOps c w ops = some (a, A) ∧ a < 4294967296 ∧ a &&& c.lockmask = 0 ∧
      c.count a ≡ c.count w - A + released ops [ZMOD ((2 ^ (32 - c.shift) : Nat) : Int)] := by
  induction ops generalizing w with
  | nil => exact ⟨w, 0, rfl, hw, hlock, by simp [released]⟩
  | cons op ops ih =>
    cases op with
    | sub old sp =>
      have hd := fetch_sub_if_slow_fair c hc w hw hlock sp old
      obtain ⟨b, hb, hlt, hlk, hT, hF⟩ := hd
      obtain ⟨a, A, hrun, ha, hal, hmod⟩ := ih _ hlt hlk
      refine ⟨a, A + (if b then 1 else 0), ?_, ha, hal, ?_⟩
      · simp only [runOps, hb, hrun, Option.map_some']
      · cases b with
        | true =>
          have h1 := subDone_count_modEq hc hb (fetch_sub_if_slow_fair c hc w hw hlock sp old)
          have h2 := hmod.trans ((h1.sub_right (A : Int)).add_right (released ops : Int))
          simp only [released, if_true]
          rw [Nat.cast_add, Nat.cast_one]
          have e : c.count w - 1 - (A : Int) + (released ops : Int) =
              c.count w - ((A : Int) + 1) + (released ops : Int) := by ring
          rw [← e]; exact h2
        | false =>
          rw [hF rfl] at hmod
          simpa [released] using hmod
    | add term old notify sp =>
      have hd := fetch_add_slow_fair c hc term notify w hw hlock sp old
      have h1 := addDone_count_modEq hc hd
      obtain ⟨hret, hlt, hlk, _⟩ := hd
      obtain ⟨a, A, hrun, ha, hal, hmod⟩ := ih _ hlt hlk
      refine ⟨a, A, ?_, ha, hal, ?_⟩
      · simp only [runOps, hret, hrun]
      · have h2 := hmod.trans ((h1.sub_right (A : Int)).add_right (released ops : Int))
        simp only [released]
        rw [Nat.cast_add]
        have e : c.count w + (term : Int) - (A : Int) + (released ops : Int) =
            c.count w - (A : Int) + ((term : Int) + (released ops : Int)) := by ring
        rw [← e]; exact h2

/-- Claim C3: run without interference on a word `w` whose lock mask is clear,
with any stale `old` and any finite series of spurious failures of the weak
compare-exchange, `__fetch_add_slow(n, old, order, notify)` returns and leaves
the count field at that of `w` plus `n` when the sum is representable;
`__fetch_sub_if_slow` returns, taking exactly one from the count field when it
returns `true` and leaving the word alone when it returns `false`; and after
any sequence of such calls the count field is the initial one minus the number
of successful decrements plus the units released, whenever that number is
representable in the field. -/
theorem counting_conservation (c : CountingConsts) (hc : c.WF) (w : Nat)
    (hw : w < 4294967296) (hlock : w &&& c.lockmask = 0) :
    (∀ (n old : Nat) (notify : Notify) (sp : List Bool),
        c.count w + n < (2 : Int) ^ (31 - c.shift) →
        (fetch_add_slow c n notify w old (fair sp)).ret = some () ∧
        c.count (fetch_add_slow c n notify w old (fair sp)).atom = c.count w + n) ∧
    (∀ (old : Nat) (sp : List Bool), ∃ b,
        (fetch_sub_if_slow c w old (fair sp)).ret = some b ∧
        (b = true → -(2 : Int) ^ (31 - c.shift) < c.count w →
          c.count (fetch_sub_if_slow c w old (fair sp)).atom = c.count w - 1) ∧
        (b = false → (fetch_sub_if_slow c w old (fair sp)).atom = w)) ∧
    (∀ ops : List Op, ∃ a A, runOps c w ops = some (a, A) ∧
        (-(2 : Int) ^ (31 - c.shift) ≤ c.count w - A + released ops →
          c.count w - A + released ops < (2 : Int) ^ (31 - c.shift) →
          c.count a = c.count w - A + released ops)) := by
  have hs : c.shift ≤ 31 := by have := hc.1; omega
  have hM := two_pow_field hs
  have hH : ((2 ^ (31 - c.shift) : Nat) : Int) = (2 : Int) ^ (31 - c.shift) := by push_cast; rfl
  have hbw := count_bounds c hs w
  refine ⟨?_, ?_, ?_⟩
  · intro n old notify sp hn
    have hd := fetch_add_slow_fair c hc n notify w hw hlock sp old
    refine ⟨hd.1, ?_⟩
    have hb := count_bounds c hs (fetch_add_slow c n notify w old (fair sp)).atom
    exact eq_of_modEq_of_bounds hM (addDone_count_modEq hc hd) hb.1 hb.2 (by omega) (by omega)
  · intro old sp
    have hd := fetch_sub_if_slow_fair c hc w hw hlock sp old
    obtain ⟨b, hb, _, _, _, hF⟩ := hd
    refine ⟨b, hb, ?_, hF⟩
    intro hbt hlow
    rw [hbt] at hb
    have hbd := count_bounds c hs (fetch_sub_if_slow c w old (fair sp)).atom
    exact eq_of_modEq_of_bounds hM
      (subDone_count_modEq hc hb (fetch_sub_if_slow_fair c hc w hw hlock sp old))
      hbd.1 hbd.2 (by omega) (by omega)
  · intro ops
    obtain ⟨a, A, hrun, _, _, hmod⟩ := runOps_modEq c hc ops w hw hlock
    refine ⟨a, A, hrun, ?_⟩
    intro h1 h2
    have hb := count_bounds c hs a
    exact eq_of_modEq_of_bounds hM hmod hb.1 hb.2 (by omega) (by omega)

/-- Claim C3 applied to the word `4` (count field `1`), a release of `3` units
with a stale `old = 0` and one spurious failure. -/
theorem counting_conservation_witness :
    (fetch_add_slow CountingConsts.std 3 Notify.one 4 0 (fair [true])).ret = some () ∧
    CountingConsts.std.count (fetch_add_slow CountingConsts.std 3 Notify.one 4 0 (fair [true])).atom =
      CountingConsts.std.count 4 + (3 : Nat) :=
  (counting_conservation CountingConsts.std (by decide) 4 (by decide) (by decide)).1
    3 0 Notify.one [true] (by decide)

/-- Claim C4 applied to a release of one unit with `notify = one` on the word
`6` (count field `1`, contention mask set). -/
theorem fetch_add_slow_wake_witness :
    ∃ fails : List Ev, (∀ x ∈ fails, ∃ e d s, x = Ev.cas e d s false) ∧
      (((fetch_add_slow CountingConsts.std 1 Notify.one 6 6 [Tick.calm, Tick.calm]).trace = fails ∧
          (fetch_add_slow CountingConsts.std 1 Notify.one 6 6 [Tick.calm, Tick.calm]).ret = none) ∨
        ∃ e d, (d &&& CountingConsts.std.lockmask ≠ 0 ↔
            (e &&& CountingConsts.std.contmask ≠ 0 ∧ Notify.one ≠ Notify.none)) ∧
          ((¬ (e &&& CountingConsts.std.contmask ≠ 0 ∧ Notify.one ≠ Notify.none) ∧
              (fetch_add_slow CountingConsts.std 1 Notify.one 6 6 [Tick.calm, Tick.calm]).trace =
                fails ++ [Ev.cas e d e true] ∧
              (fetch_add_slow CountingConsts.std 1 Notify.one 6 6 [Tick.calm, Tick.calm]).ret = some () ∧
              (fetch_add_slow CountingConsts.std 1 Notify.one 6 6 [Tick.calm, Tick.calm]).atom = d) ∨
            ((e &&& CountingConsts.std.contmask ≠ 0 ∧ Notify.one ≠ Notify.none) ∧
              (fetch_add_slow CountingConsts.std 1 Notify.one 6 6 [Tick.calm, Tick.calm]).trace =
                fails ++ Ev.cas e d e true :: wakeOf Notify.one ∧
              (fetch_add_slow CountingConsts.std 1 Notify.one 6 6 [Tick.calm, Tick.calm]).ret = none) ∨
            ((e &&& CountingConsts.std.contmask ≠ 0 ∧ Notify.one ≠ Notify.none) ∧
              (fetch_add_slow CountingConsts.std 1 Notify.one 6 6 [Tick.calm, Tick.calm]).trace =
                fails ++ Ev.cas e d e true ::
                  (wakeOf Notify.one ++ [Ev.fetchAnd (not32 CountingConsts.std.lockmask)]) ∧
              (fetch_add_slow CountingConsts.std 1 Notify.one 6 6 [Tick.calm, Tick.calm]).ret = some () ∧
              (fetch_add_slow CountingConsts.std 1 Notify.one 6 6 [Tick.calm, Tick.calm]).atom &&&
                CountingConsts.std.lockmask = 0))) :=
  (fetch_add_slow_wake CountingConsts.std (by decide) 1 Notify.one [Tick.calm, Tick.calm] 6 6).1

/-! ## Binary semaphore: release -/

theorem and_two_pow_eq_zero (n i : Nat) : n &&& 2 ^ i = 0 ↔ n.testBit i = false := by
  rw [Nat.and_two_pow]
  cases h : n.testBit i
  · simp
  · simp

theorem and_two_pow_ne_zero (n i : Nat) : n &&& 2 ^ i ≠ 0 ↔ n.testBit i = true := by
  rw [Ne, and_two_pow_eq_zero]
  cases n.testBit i <;> simp

theorem release_slow_hit (b : BinaryConsts) (hb : b.WF) (w old : Nat) (t t' : Tick)
    (ts : List Tick) (hlock : w &&& b.lockbit = 0)
    (hold : old &&& not32 b.lockbit = w) (ht : t.pre = none) (hsp : t.spurious = false)
    (ht' : t'.pre = none) :
    ReleaseDone b w (release_slow b w old (t :: t' :: ts)) := by
  obtain ⟨hvc, hc32, hl32, hs32, hlv, hls, hlc, hsv, hsc⟩ := hb
  have hwl : w.testBit b.lock = false := (and_two_pow_eq_zero _ _).1 hlock
  have hL0 : b.lockbit ≠ 0 := by unfold BinaryConsts.lockbit; positivity
  simp only [release_slow, ht, ht', Option.getD_none, hold, hsp, and_self, if_true]
  by_cases hslow : w &&& b.slowbit ≠ 0
  · have hws : w.testBit b.slow = true := (and_two_pow_ne_zero _ _).1 hslow
    rw [if_pos hslow, if_pos hL0]
    unfold ReleaseDone
    rw [if_pos hslow]
    refine ⟨rfl, ?_, [], _, by simp, ?_, rfl⟩
    · show (_ &&& not32 b.lockbit) = _
      apply Nat.eq_of_testBit_eq
      intro j
      simp only [Nat.testBit_and, Nat.testBit_or, not32_testBit, BinaryConsts.lockbit,
        BinaryConsts.valubit, BinaryConsts.slowbit, Nat.testBit_two_pow]
      by_cases h1 : b.lock = j
      · subst h1; simp [hwl]
      · cases w.testBit j <;> simp [h1]
        intro h _ _; exact h
    · refine ⟨fun _ => hslow, fun _ => ?_⟩
      show _ &&& 2 ^ b.lock ≠ 0
      rw [and_two_pow_ne_zero]
      simp only [Nat.testBit_and, Nat.testBit_or, not32_testBit, BinaryConsts.lockbit,
        BinaryConsts.valubit, BinaryConsts.slowbit, Nat.testBit_two_pow]
      simp [hl32, hlv.symm, hls.symm]
  · rw [if_neg hslow, if_neg (by simp), Nat.or_zero]
    unfold ReleaseDone
    rw [if_neg hslow]
    have hws : w.testBit b.slow = false := by
      have := (and_two_pow_eq_zero w b.slow).1 (by simpa [BinaryConsts.slowbit] using hslow)
      exact this
    refine ⟨rfl, ?_, [], _, by simp, ?_, rfl⟩
    · apply Nat.eq_of_testBit_eq
      intro j
      simp only [Nat.testBit_and, Nat.testBit_or, not32_testBit, BinaryConsts.lockbit,
        BinaryConsts.valubit, BinaryConsts.slowbit, Nat.testBit_two_pow]
      by_cases h1 : b.lock = j
      · subst h1; simp [hwl]
      · cases w.testBit j <;> simp [h1]
    · refine ⟨fun h => absurd ?_ h, fun h => absurd h hslow⟩
      show _ &&& 2 ^ b.lock = 0
      rw [and_two_pow_eq_zero]
      simp [Nat.testBit_and, hwl]

theorem release_slow_fair (b : BinaryConsts) (hb : b.WF) (w : Nat) (hw : w < 4294967296)
    (hlock : w &&& b.lockbit = 0) (sp : List Bool) (old : Nat) :
    ReleaseDone b w (release_slow b w old (fair sp)) := by
  have hfix : w &&& not32 b.lockbit = w := and_not32_self hw hlock
  have miss : ∀ (old : Nat) (t : Tick) (ts : List Tick), t.pre = none →
      ¬ (w = old &&& not32 b.lockbit ∧ t.spurious = false) →
      ReleaseDone b w (release_slow b w w ts) →
      ReleaseDone b w (release_slow b w old (t :: ts)) := by
    intro old t ts ht hmiss hrec
    simp only [release_slow, ht, Option.getD_none, if_neg hmiss]
    obtain ⟨h1, h2, fails, d, hf, hd, htr⟩ := hrec
    refine ⟨h1, h2, Ev.cas (old &&& not32 b.lockbit)
      ((old &&& not32 b.lockbit |||
        if old &&& not32 b.lockbit &&& b.slowbit ≠ 0 then b.lockbit else 0) &&&
          not32 (b.valubit ||| b.slowbit)) w false :: fails, d, ?_, hd, ?_⟩
    · intro x hx
      rcases List.mem_cons.1 hx with h | h
      · exact ⟨_, _, _, h⟩
      · exact hf x h
    · show _ :: _ = _
      rw [htr]; rfl
  induction sp generalizing old with
  | nil =>
    by_cases h : w = old &&& not32 b.lockbit
    · exact release_slow_hit b hb w old _ _ _ hlock h.symm rfl rfl rfl
    · exact miss old _ _ rfl (fun h' => h h'.1)
        (release_slow_hit b hb w w _ _ _ hlock hfix rfl rfl rfl)
  | cons c sp ih =>
    by_cases h : w = old &&& not32 b.lockbit ∧ c = false
    · cases sp with
      | nil => exact release_slow_hit b hb w old _ _ _ hlock h.1.symm rfl h.2 rfl
      | cons c' sp' => exact release_slow_hit b hb w old _ _ _ hlock h.1.symm rfl h.2 rfl
    · exact miss old (Tick.solo c) (fair sp) rfl h (ih w)

/-- Claim C5: run without interference on a word `w` whose lock bit is clear,
with any stale `old` and any finite series of spurious failures of the weak
compare-exchange, `__release_slow` returns and leaves `w` with value, slow and
lock bit cleared and every other bit as it was; the word its compare-exchange
stores has the lock bit set exactly when `w` had the slow bit set, and exactly
then the store is followed by a sequentially consistent fence, a wake-all and
the `fetch_and` that clears the lock bit, in this order; when `w` had the slow
bit clear nothing follows the store. -/
theorem release_slow_spec (b : BinaryConsts) (hb : b.WF) (w : Nat) (hw : w < 4294967296)
    (hlock : w &&& b.lockbit = 0) (sp : List Bool) (old : Nat) :
    (release_slow b w old (fair sp)).ret = some () ∧
    (release_slow b w old (fair sp)).atom =
      w &&& not32 (b.valubit ||| b.slowbit ||| b.lockbit) ∧
    (∀ j, (release_slow b w old (fair sp)).atom.testBit j =
      (w.testBit j && !(decide (j = b.valu) || decide (j = b.slow) || decide (j = b.lock)))) ∧
    ∃ fails d, (∀ x ∈ fails, ∃ e d' s, x = Ev.cas e d' s false) ∧
      (d &&& b.lockbit ≠ 0 ↔ w &&& b.slowbit ≠ 0) ∧
      (release_slow b w old (fair sp)).trace = fails ++ Ev.cas w d w true ::
        (if w &&& b.slowbit ≠ 0 then [Ev.fence, Ev.wakeAll, Ev.fetchAnd (not32 b.lockbit)]
         else []) := by
  obtain ⟨h1, h2, h3⟩ := release_slow_fair b hb w hw hlock sp old
  refine ⟨h1, h2, ?_, h3⟩
  intro j
  rw [h2]
  simp only [Nat.testBit_and, Nat.testBit_or, not32_testBit, BinaryConsts.lockbit,
    BinaryConsts.valubit, BinaryConsts.slowbit, Nat.testBit_two_pow]
  by_cases hj : w.testBit j = true
  · have hj32 : j < 32 := testBit_of_lt_two_pow (by rw [← two_pow_32]; exact hw) hj
    simp only [hj, hj32, decide_True, Bool.true_and]
    congr 2
    · congr 1 <;> exact decide_eq_decide.2 eq_comm
    · exact decide_eq_decide.2 eq_comm
  · simp [hj]

/-- Claim C5 applied to the word `13` (value, slow bit and one credit) with a
stale `old` and one spurious failure. -/
theorem release_slow_spec_witness :
    (release_slow BinaryConsts.std 13 99 (fair [true])).ret = some () ∧
    (release_slow BinaryConsts.std 13 99 (fair [true])).atom =
      13 &&& not32 (BinaryConsts.std.valubit ||| BinaryConsts.std.slowbit |||
        BinaryConsts.std.lockbit) :=
  ⟨(release_slow_spec BinaryConsts.std (by decide) 13 (by decide) (by decide) [true] 99).1,
   (release_slow_spec BinaryConsts.std (by decide) 13 (by decide) (by decide) [true] 99).2.1⟩

/-! ## Binary semaphore: the ticketed acquire -/

theorem run_cons (b : BinaryConsts) (k : Config) (p : Proc) (t : Tick) (ts : List Tick) :
    run b k p (t :: ts) = run b k (step b k p t) ts := rfl

theorem run_induction (b : BinaryConsts) (k : Config) (P : Proc → Prop)
    (hstep : ∀ p t, P p → P (step b k p t)) (env : List Tick) (p : Proc) (hp : P p) :
    P (run b k p env) := by
  induction env generalizing p with
  | nil => exact hp
  | cons t ts ih => rw [run_cons]; exact ih _ (hstep p t hp)

theorem guarded_append (b : BinaryConsts) (tick : Nat) (a : Bool) (w : Nat) (xs ys : List Ev) :
    Guarded b tick a w (xs ++ ys) ↔
      Guarded b tick a w xs ∧
        Guarded b tick (xs.foldl (armNext tick) a) (xs.foldl lastNext w) ys := by
  induction xs generalizing a w with
  | nil => simp [Guarded]
  | cons x xs ih => simp [Guarded, ih, and_assoc]

theorem atHead_append (tick : Nat) (xs ys : List Ev) :
    atHead tick (xs ++ ys) = ys.foldl (armNext tick) (atHead tick xs) := by
  unfold atHead; rw [List.foldl_append]

theorem lastSeen_append (xs ys : List Ev) :
    lastSeen (xs ++ ys) = ys.foldl lastNext (lastSeen xs) := by
  unfold lastSeen; rw [List.foldl_append]

theorem loopHead_cases (fast : Bool) (lo : Local) :
    ∃ lo' pc evs, loopHead fast lo = (lo', pc, evs) ∧ lo'.tick = lo.tick ∧
      lo'.contbit = lo.contbit ∧ lo'.old = lo.old ∧ lo'.tock = lo.tock ∧
      (pc = PC.atomLoad ∨ (pc = PC.fetchOr ∧ fast = true)) ∧
      (evs = [] ∨ ∃ d, evs = [Ev.sleep d]) := by
  unfold loopHead
  split_ifs with hf hs
  · exact ⟨_, _, _, rfl, rfl, rfl, rfl, rfl, Or.inl rfl, Or.inr ⟨_, rfl⟩⟩
  · exact ⟨_, _, _, rfl, rfl, rfl, rfl, rfl, Or.inr ⟨rfl, hf⟩, Or.inl rfl⟩
  · exact ⟨_, _, _, rfl, rfl, rfl, rfl, rfl, Or.inl rfl, Or.inr ⟨_, rfl⟩⟩

theorem claimHead_cases (b : BinaryConsts) (fast : Bool) (lo : Local) :
    (lo.old &&& b.valubit = 0 ∧ claimHead b fast lo = (lo, PC.cas, [])) ∨
    (lo.old &&& b.valubit ≠ 0 ∧ ∃ lo' pc evs,
      claimHead b fast lo = (lo', pc, Ev.headUnavailable :: evs) ∧ lo'.tick = lo.tick ∧
      lo'.contbit = lo.contbit ∧ lo'.old = lo.old ∧ lo'.tock = lo.tock ∧
      ((pc = PC.addCredit ∧ lo.contbit = 0 ∧ evs = []) ∨
        ((pc = PC.atomLoad ∨ (pc = PC.fetchOr ∧ fast = true)) ∧ lo.contbit ≠ 0 ∧
          (evs = [] ∨ ∃ d, evs = [Ev.sleep d])))) := by
  unfold claimHead
  by_cases h : lo.old &&& b.valubit = 0
  · exact Or.inl ⟨h, by rw [if_pos h]⟩
  · refine Or.inr ⟨h, ?_⟩
    rw [if_neg h]
    by_cases hc : lo.contbit = 0
    · rw [if_pos hc]
      exact ⟨_, _, _, rfl, rfl, rfl, rfl, rfl, Or.inl ⟨rfl, hc, rfl⟩⟩
    · rw [if_neg hc]
      obtain ⟨lo', pc, evs, hlh, h1, h2, h3, h4, h5, h6⟩ := loopHead_cases fast lo
      rw [hlh]
      exact ⟨_, _, _, rfl, h1, h2, h3, h4, Or.inr ⟨h5, hc, h6⟩⟩

theorem testBit_add_mul_two_pow {i j : Nat} (hji : j < i) (x m : Nat) :
    (x + 2 ^ i * m).testBit j = x.testBit j := by
  have h1 := Nat.testBit_mod_two_pow (x + 2 ^ i * m) i j
  have h2 := Nat.testBit_mod_two_pow x i j
  rw [Nat.add_mul_mod_self_left] at h1
  rw [h1] at h2
  simpa [hji] using h2

theorem testBit_mod32 {j : Nat} (hj : j < 32) (x : Nat) :
    (x % 4294967296).testBit j = x.testBit j := by
  rw [two_pow_32, Nat.testBit_mod_two_pow]; simp [hj]

theorem testBit_sub32_credit (b : BinaryConsts) (hb : b.WF) (e cb : Nat)
    (hcb : cb = 0 ∨ cb = b.contbit) :
    (sub32 e cb).testBit b.valu = e.testBit b.valu := by
  obtain ⟨hvc, hc32, _⟩ := hb
  have hv32 : b.valu < 32 := by omega
  unfold sub32
  rw [testBit_mod32 hv32]
  rcases hcb with h | h
  · rw [h]
    have : e + (4294967296 - 0 % 4294967296) = e + 2 ^ 32 * 1 := by norm_num
    rw [this, testBit_add_mul_two_pow hv32]
  · rw [h]
    unfold BinaryConsts.contbit
    have hlt : 2 ^ b.cont < 4294967296 := by
      rw [two_pow_32]; exact Nat.pow_lt_pow_right (by norm_num) hc32
    have : 4294967296 - 2 ^ b.cont % 4294967296 = 2 ^ b.cont * (2 ^ (32 - b.cont) - 1) := by
      rw [Nat.mod_eq_of_lt hlt, Nat.mul_sub, mul_one, mul_comm, Nat.pow_sub_mul_pow 2 (by omega)]
    rw [this, testBit_add_mul_two_pow hvc]

theorem claim_word_valubit (b : BinaryConsts) (hb : b.WF) (e cb : Nat)
    (hcb : cb = 0 ∨ cb = b.contbit) (he : e &&& b.valubit = 0) :
    add32 (sub32 e cb) b.valubit &&& b.valubit ≠ 0 := by
  have hv32 : b.valu < 32 := by have := hb.1; have := hb.2.1; omega
  have h1 := testBit_sub32_credit b hb e cb hcb
  unfold BinaryConsts.valubit at he ⊢
  rw [and_two_pow_eq_zero] at he
  rw [and_two_pow_ne_zero]
  unfold add32
  rw [testBit_mod32 hv32, add_comm, Nat.testBit_two_pow_add_eq, h1, he]
  rfl

theorem testBit_add32_contbit (b : BinaryConsts) (hb : b.WF) (w : Nat) :
    (add32 w b.contbit).testBit b.valu = w.testBit b.valu := by
  have hv32 : b.valu < 32 := by have := hb.1; have := hb.2.1; omega
  unfold add32 BinaryConsts.contbit
  rw [testBit_mod32 hv32]
  have := testBit_add_mul_two_pow hb.1 w 1
  rwa [mul_one] at this

theorem and_not32_of_and_eq_zero {x v : Nat} (h : x &&& v = 0) (m : Nat) :
    (x &&& not32 m) &&& v = 0 := by
  rw [Nat.and_assoc, Nat.and_comm (not32 m), ← Nat.and_assoc, h, Nat.zero_and]

theorem headInv_init (b : BinaryConsts) (k : Config) (sh : Shared) :
    HeadInv b k (Proc.init sh) where
  guarded := trivial
  atCas := fun h => by simp [Proc.init] at h
  away := fun _ _ => rfl
  seen := fun h => by simp [Proc.init] at h
  fastOnly := fun h => by simp [Proc.init] at h
  fresh := fun _ => rfl
  drawn := fun h => by simp [Proc.init] at h
  cont := Or.inl rfl
  won := fun h => by simp [Proc.init] at h

/-- The invariant survives a step that appends events allowed where the call
stands and keeps the ticket. -/
theorem headInv_extend {b : BinaryConsts} {k : Config} {p q : Proc} (h : HeadInv b k p)
    (evs : List Ev) (hpc : p.pc ≠ PC.ticketFetchAdd)
    (htr : q.trace = p.trace ++ evs) (htick : q.lo.tick = p.lo.tick)
    (hG : Guarded b p.lo.tick (atHead p.lo.tick p.trace) (lastSeen p.trace) evs)
    (hcas : q.pc = PC.cas → atHead p.lo.tick (p.trace ++ evs) = true ∧
      q.lo.old &&& b.valubit = 0 ∧ lastSeen (p.trace ++ evs) = q.lo.old)
    (haway : q.pc ≠ PC.cas → q.pc ≠ PC.done true → atHead p.lo.tick (p.trace ++ evs) = false)
    (hseen : q.pc = PC.tocketLoad ∨ (q.pc = PC.callFn ∧ k.fast = false) →
      lastSeen (p.trace ++ evs) = q.lo.old)
    (hfast : q.pc = PC.fetchOr → k.fast = true)
    (hq : q.pc ≠ PC.ticketFetchAdd)
    (hcont : q.lo.contbit = 0 ∨ q.lo.contbit = b.contbit)
    (hwon : q.pc = PC.done true → ∃ pre e d, q.trace = pre ++ [Ev.cas e d e true]) :
    HeadInv b k q where
  guarded := by
    rw [htr, htick, guarded_append]
    exact ⟨h.guarded, hG⟩
  atCas := by
    intro hc
    rw [htr, htick]
    exact hcas hc
  away := by
    intro h1 h2
    rw [htr, htick]
    exact haway h1 h2
  seen := by
    intro h1
    rw [htr]
    exact hseen h1
  fastOnly := hfast
  fresh := fun hc => absurd hc hq
  drawn := by
    intro _
    have hd := h.drawn hpc
    rw [htr, htick]
    cases hp : p.trace with
    | nil => rw [hp] at hd; simp at hd
    | cons x xs => rw [hp] at hd; simpa using hd
  cont := hcont
  won := hwon

theorem guarded_sleepy (b : BinaryConsts) (tick : Nat) (w : Nat) (evs : List Ev)
    (h : evs = [] ∨ ∃ d, evs = [Ev.sleep d]) : Guarded b tick false w evs := by
  rcases h with rfl | ⟨d, rfl⟩ <;> simp [Guarded, evOk]

theorem atHead_sleepy (tick : Nat) (a : Bool) (evs : List Ev)
    (h : evs = [] ∨ ∃ d, evs = [Ev.sleep d]) (ha : a = false) :
    evs.foldl (armNext tick) a = false := by
  rcases h with rfl | ⟨d, rfl⟩ <;> simp [armNext, ha]

theorem headInv_step (b : BinaryConsts) (hb : b.WF) (k : Config) (p : Proc) (t : Tick)
    (h : HeadInv b k p) : HeadInv b k (step b k p t) := by
  cases hpc : p.pc with
  | ticketFetchAdd =>
    have htr := h.fresh hpc
    simp only [step, hpc, htr, List.nil_append]
    exact {
      guarded := by simp [Guarded, evOk]
      atCas := fun hc => by simp at hc
      away := fun _ _ => rfl
      seen := fun hc => by simp at hc
      fastOnly := fun hc => by simp at hc
      fresh := fun hc => by simp at hc
      drawn := fun _ => rfl
      cont := h.cont
      won := fun hc => by simp at hc }
  | tocketInit =>
    have hat0 := h.away (by simp [hpc]) (by simp [hpc])
    obtain ⟨lo', pc', evs, hlh, h1, h2, h3, h4, h5, h6⟩ :=
      loopHead_cases k.fast { p.lo with tock := t.pre.getD p.sh.tocket, contbit := 0, sum := 0 }
    simp only [step, hpc, hlh]
    refine headInv_extend h (Ev.tocketInit (t.pre.getD p.sh.tocket) :: evs) (by simp [hpc]) rfl h1
      ?_ ?_ ?_ ?_ ?_ ?_ ?_ ?_
    · exact ⟨hat0, guarded_sleepy _ _ _ _ h6⟩
    · intro hc; rcases h5 with h5 | ⟨h5, _⟩ <;> simp [h5] at hc
    · intro _ _
      rw [atHead_append]
      simp only [List.foldl_cons]
      exact atHead_sleepy _ _ _ h6 rfl
    · intro hc; rcases h5 with h5 | ⟨h5, _⟩ <;> simp [h5] at hc
    · intro hc; rcases h5 with h5 | ⟨h5, hf⟩
      · simp [h5] at hc
      · exact hf
    · rcases h5 with h5 | ⟨h5, _⟩ <;> simp [h5]
    · exact Or.inl h2
    · intro hc; rcases h5 with h5 | ⟨h5, _⟩ <;> simp [h5] at hc
  | fetchOr =>
    have hat0 := h.away (by simp [hpc]) (by simp [hpc])
    have hf := h.fastOnly hpc
    simp only [step, hpc]
    refine headInv_extend h [Ev.fetchOr b.slowbit (t.pre.getD p.sh.atom)] (by simp [hpc]) rfl rfl
      ?_ ?_ ?_ ?_ ?_ ?_ h.cont ?_
    · exact ⟨hat0, trivial⟩
    · intro hc; split_ifs at hc
    · intro _ _; rw [atHead_append]; rfl
    · intro hc; rcases hc with hc | ⟨_, hc⟩
      · split_ifs at hc
      · rw [hf] at hc; exact Bool.noConfusion hc
    · intro hc; split_ifs at hc
    · show (if _ then _ else _) ≠ _; split_ifs <;> simp
    · intro hc; split_ifs at hc
  | callFn =>
    have hat0 := h.away (by simp [hpc]) (by simp [hpc])
    simp only [step, hpc]
    refine headInv_extend h _ (by simp [hpc]) rfl rfl ?_ ?_ ?_ ?_ ?_ ?_ h.cont ?_
    · split_ifs <;> simp [Guarded, evOk, hat0, armNext]
    · intro hc; split_ifs at hc
    · intro _ _; rw [atHead_append]; split_ifs <;> rfl
    · intro hc
      rcases hc with hc | ⟨hc, _⟩
      · by_cases hf : k.fast = true
        · simp [hf] at hc
          split_ifs at hc
        · have hf' : k.fast = false := by simpa using hf
          rw [lastSeen_append, h.seen (Or.inr ⟨hpc, hf'⟩)]
          simp [hf', lastNext]
      · split_ifs at hc
    · intro hc; split_ifs at hc
    · show (if _ then _ else _) ≠ _; split_ifs <;> simp
    · intro hc; split_ifs at hc <;> simp at hc
  | atomLoad =>
    have hat0 := h.away (by simp [hpc]) (by simp [hpc])
    simp only [step, hpc]
    refine headInv_extend h [Ev.atomLoad (t.pre.getD p.sh.atom)] (by simp [hpc]) rfl rfl
      ?_ ?_ ?_ ?_ ?_ ?_ h.cont ?_
    · exact ⟨hat0, trivial⟩
    · intro hc; split_ifs at hc
    · intro _ _; rw [atHead_append]; rfl
    · intro _; rw [lastSeen_append]; rfl
    · intro hc; split_ifs at hc
    · show (if _ then _ else _) ≠ _; split_ifs <;> simp
    · intro hc; split_ifs at hc
  | tocketLoad =>
    have hat0 := h.away (by simp [hpc]) (by simp [hpc])
    have hseen := h.seen (Or.inl hpc)
    simp only [step, hpc]
    by_cases hv : t.pre.getD p.sh.tocket ≠ p.lo.tick
    · rw [if_pos hv]
      obtain ⟨lo', pc', evs, hlh, h1, h2, h3, h4, h5, h6⟩ :=
        loopHead_cases k.fast { p.lo with tock := t.pre.getD p.sh.tocket }
      simp only [hlh]
      refine headInv_extend h (Ev.tocketLoad (t.pre.getD p.sh.tocket) :: evs) (by simp [hpc])
        rfl h1 ?_ ?_ ?_ ?_ ?_ ?_ ?_ ?_
      · refine ⟨hat0, ?_⟩
        have : armNext p.lo.tick (atHead p.lo.tick p.trace)
            (Ev.tocketLoad (t.pre.getD p.sh.tocket)) = false := by simp [armNext, hv]
        rw [this]
        exact guarded_sleepy _ _ _ _ h6
      · intro hc; rcases h5 with h5 | ⟨h5, _⟩ <;> simp [h5] at hc
      · intro _ _
        rw [atHead_append]
        simp only [List.foldl_cons]
        exact atHead_sleepy _ _ _ h6 (by simp [armNext, hv])
      · intro hc; rcases h5 with h5 | ⟨h5, _⟩ <;> simp [h5] at hc
      · intro hc; rcases h5 with h5 | ⟨h5, hf⟩
        · simp [h5] at hc
        · exact hf
      · rcases h5 with h5 | ⟨h5, _⟩ <;> simp [h5]
      · rw [h2]; exact h.cont
      · intro hc; rcases h5 with h5 | ⟨h5, _⟩ <;> simp [h5] at hc
    · rw [if_neg hv]
      have hv' : t.pre.getD p.sh.tocket = p.lo.tick := not_not.1 hv
      rcases claimHead_cases b k.fast { p.lo with tock := t.pre.getD p.sh.tocket } with
        ⟨hz, hch⟩ | ⟨hnz, lo', pc', evs, hch, h1, h2, h3, h4, hor⟩
      · simp only [hch]
        refine headInv_extend h [Ev.tocketLoad (t.pre.getD p.sh.tocket)] (by simp [hpc])
          rfl rfl ?_ ?_ ?_ ?_ ?_ ?_ h.cont ?_
        · exact ⟨hat0, trivial⟩
        · intro _
          refine ⟨?_, hz, ?_⟩
          · rw [atHead_append]; simp [armNext, hv']
          · rw [lastSeen_append]; exact hseen
        · intro hc; simp at hc
        · intro hc; simp at hc
        · intro hc; simp at hc
        · simp
        · intro hc; simp at hc
      · simp only [hch]
        have hevs : evs = [] ∨ ∃ d, evs = [Ev.sleep d] := by
          rcases hor with ⟨_, _, he⟩ | ⟨_, _, he⟩
          · exact Or.inl he
          · exact he
        refine headInv_extend h
          (Ev.tocketLoad (t.pre.getD p.sh.tocket) :: Ev.headUnavailable :: evs) (by simp [hpc])
          rfl h1 ?_ ?_ ?_ ?_ ?_ ?_ ?_ ?_
        · refine ⟨hat0, ⟨?_, ?_⟩, ?_⟩
          · simp [armNext, hv']
          · show lastSeen p.trace &&& b.valubit ≠ 0
            rw [hseen]; exact hnz
          · exact guarded_sleepy _ _ _ _ hevs
        · intro hc; rcases hor with ⟨hp, _, _⟩ | ⟨hp | ⟨hp, _⟩, _, _⟩ <;> simp [hp] at hc
        · intro _ _
          rw [atHead_append]
          simp only [List.foldl_cons]
          exact atHead_sleepy _ _ _ hevs rfl
        · intro hc; rcases hor with ⟨hp, _, _⟩ | ⟨hp | ⟨hp, _⟩, _, _⟩ <;> simp [hp] at hc
        · intro hc; rcases hor with ⟨hp, _, _⟩ | ⟨hp | ⟨hp, hf⟩, _, _⟩
          · simp [hp] at hc
          · simp [hp] at hc
          · exact hf
        · rcases hor with ⟨hp, _, _⟩ | ⟨hp | ⟨hp, _⟩, _, _⟩ <;> simp [hp]
        · rw [h2]; exact h.cont
        · intro hc; rcases hor with ⟨hp, _, _⟩ | ⟨hp | ⟨hp, _⟩, _, _⟩ <;> simp [hp] at hc
  | cas =>
    obtain ⟨hat, hold, hseen⟩ := h.atCas hpc
    have he_v : (p.lo.old &&& not32 b.lockbit) &&& b.valubit = 0 :=
      and_not32_of_and_eq_zero hold _
    have he_l : (p.lo.old &&& not32 b.lockbit) &&& b.lockbit = 0 := and_not32_and_self _ _
    have hd := claim_word_valubit b hb _ _ h.cont he_v
    have hok : ∀ ok, (ok = true → t.pre.getD p.sh.atom = p.lo.old &&& not32 b.lockbit) →
        evOk b (atHead p.lo.tick p.trace) (lastSeen p.trace)
          (Ev.cas (p.lo.old &&& not32 b.lockbit)
            (add32 (sub32 (p.lo.old &&& not32 b.lockbit) p.lo.contbit) b.valubit)
            (t.pre.getD p.sh.atom) ok) := by
      intro ok hh
      exact ⟨hat, by rw [hseen]; exact hold, by rw [hseen], he_l, hd, hh⟩
    simp only [step, hpc]
    by_cases hc : t.pre.getD p.sh.atom = p.lo.old &&& not32 b.lockbit ∧ t.spurious = false
    · rw [if_pos hc]
      refine headInv_extend h [Ev.cas (p.lo.old &&& not32 b.lockbit)
        (add32 (sub32 (p.lo.old &&& not32 b.lockbit) p.lo.contbit) b.valubit)
        (t.pre.getD p.sh.atom) true] (by simp [hpc]) rfl rfl ?_ ?_ ?_ ?_ ?_ ?_ h.cont ?_
      · exact ⟨hok true (fun _ => hc.1), trivial⟩
      · intro hc'; simp at hc'
      · intro _ hc'; simp at hc'
      · intro hc'; simp at hc'
      · intro hc'; simp at hc'
      · simp
      · intro _
        refine ⟨p.trace, p.lo.old &&& not32 b.lockbit,
          add32 (sub32 (p.lo.old &&& not32 b.lockbit) p.lo.contbit) b.valubit, ?_⟩
        show p.trace ++ [_] = p.trace ++ [_]
        rw [hc.1]
    · rw [if_neg hc]
      rcases claimHead_cases b k.fast { p.lo with old := t.pre.getD p.sh.atom } with
        ⟨hz, hch⟩ | ⟨hnz, lo', pc', evs, hch, h1, h2, h3, h4, hor⟩
      · simp only [hch]
        refine headInv_extend h [Ev.cas (p.lo.old &&& not32 b.lockbit)
          (add32 (sub32 (p.lo.old &&& not32 b.lockbit) p.lo.contbit) b.valubit)
          (t.pre.getD p.sh.atom) false] (by simp [hpc]) rfl rfl ?_ ?_ ?_ ?_ ?_ ?_ h.cont ?_
        · exact ⟨hok false (fun hh => Bool.noConfusion hh), trivial⟩
        · intro _
          refine ⟨?_, hz, ?_⟩
          · rw [atHead_append]; simpa [armNext] using hat
          · rw [lastSeen_append]; rfl
        · intro hc'; simp at hc'
        · intro hc'; simp at hc'
        · intro hc'; simp at hc'
        · simp
        · intro hc'; simp at hc'
      · simp only [hch]
        have hevs : evs = [] ∨ ∃ d, evs = [Ev.sleep d] := by
          rcases hor with ⟨_, _, he⟩ | ⟨_, _, he⟩
          · exact Or.inl he
          · exact he
        refine headInv_extend h (Ev.cas (p.lo.old &&& not32 b.lockbit)
          (add32 (sub32 (p.lo.old &&& not32 b.lockbit) p.lo.contbit) b.valubit)
          (t.pre.getD p.sh.atom) false :: Ev.headUnavailable :: evs) (by simp [hpc])
          rfl h1 ?_ ?_ ?_ ?_ ?_ ?_ ?_ ?_
        · refine ⟨hok false (fun hh => Bool.noConfusion hh), ⟨?_, ?_⟩, ?_⟩
          · simpa [armNext] using hat
          · exact hnz
          · exact guarded_sleepy _ _ _ _ hevs
        · intro hc'; rcases hor with ⟨hp, _, _⟩ | ⟨hp | ⟨hp, _⟩, _, _⟩ <;> simp [hp] at hc'
        · intro _ _
          rw [atHead_append]
          simp only [List.foldl_cons]
          exact atHead_sleepy _ _ _ hevs rfl
        · intro hc'; rcases hor with ⟨hp, _, _⟩ | ⟨hp | ⟨hp, _⟩, _, _⟩ <;> simp [hp] at hc'
        · intro hc'; rcases hor with ⟨hp, _, _⟩ | ⟨hp | ⟨hp, hf⟩, _, _⟩
          · simp [hp] at hc'
          · simp [hp] at hc'
          · exact hf
        · rcases hor with ⟨hp, _, _⟩ | ⟨hp | ⟨hp, _⟩, _, _⟩ <;> simp [hp]
        · rw [h2]; exact h.cont
        · intro hc'; rcases hor with ⟨hp, _, _⟩ | ⟨hp | ⟨hp, _⟩, _, _⟩ <;> simp [hp] at hc'
  | addCredit =>
    have hat0 := h.away (by simp [hpc]) (by simp [hpc])
    obtain ⟨lo', pc', evs, hlh, h1, h2, h3, h4, h5, h6⟩ :=
      loopHead_cases k.fast { p.lo with contbit := b.contbit }
    simp only [step, hpc, hlh]
    refine headInv_extend h (Ev.fetchAdd b.contbit :: evs) (by simp [hpc]) rfl h1
      ?_ ?_ ?_ ?_ ?_ ?_ ?_ ?_
    · exact ⟨hat0, guarded_sleepy _ _ _ _ h6⟩
    · intro hc; rcases h5 with h5 | ⟨h5, _⟩ <;> simp [h5] at hc
    · intro _ _
      rw [atHead_append]
      simp only [List.foldl_cons]
      exact atHead_sleepy _ _ _ h6 rfl
    · intro hc; rcases h5 with h5 | ⟨h5, _⟩ <;> simp [h5] at hc
    · intro hc; rcases h5 with h5 | ⟨h5, hf⟩
      · simp [h5] at hc
      · exact hf
    · rcases h5 with h5 | ⟨h5, _⟩ <;> simp [h5]
    · exact Or.inr h2
    · intro hc; rcases h5 with h5 | ⟨h5, _⟩ <;> simp [h5] at hc
  | done r =>
    have : step b k p t = p := by simp only [step, hpc]
    rw [this]; exact h

theorem guarded_split (b : BinaryConsts) (tick : Nat) (a : Bool) (w : Nat)
    (pre : List Ev) (e : Ev) (post : List Ev) (h : Guarded b tick a w (pre ++ e :: post)) :
    evOk b (pre.foldl (armNext tick) a) (pre.foldl lastNext w) e :=
  ((guarded_append b tick a w pre (e :: post)).1 h).2.1

theorem atHead_explicit (tick : Nat) (pre : List Ev) (h : atHead tick pre = true) :
    ∃ pre0 cs, pre = pre0 ++ Ev.tocketLoad tick :: cs ∧
      ∀ x ∈ cs, ∃ e d s ok, x = Ev.cas e d s ok := by
  induction pre using List.reverseRecOn with
  | nil => simp [atHead] at h
  | append_singleton xs x ih =>
    rw [atHead_append] at h
    cases x with
    | tocketLoad v =>
      have hv : v = tick := by simpa [armNext] using h
      exact ⟨xs, [], by rw [hv], by simp⟩
    | cas e d s ok =>
      have hx : atHead tick xs = true := by simpa [armNext] using h
      obtain ⟨pre0, cs, hpre, hcs⟩ := ih hx
      refine ⟨pre0, cs ++ [Ev.cas e d s ok], by rw [hpre]; simp, ?_⟩
      intro y hy
      rcases List.mem_append.1 hy with hy | hy
      · exact hcs y hy
      · exact ⟨e, d, s, ok, by simpa using hy⟩
    | _ => simp [armNext] at h

theorem headInv_run (b : BinaryConsts) (hb : b.WF) (k : Config) (sh : Shared)
    (env : List Tick) : HeadInv b k (run b k (Proc.init sh) env) :=
  run_induction b k (HeadInv b k) (fun p t h => headInv_step b hb k p t h) env _
    (headInv_init b k sh)

/-- Claim C9: in every run of `__binary_semaphore_acquire_slow`, whatever other
threads do, every compare-exchange on the word comes after a `tocket` load of
the loop that returned the ticket drawn at entry, with nothing but
compare-exchange attempts in between; it expects the word last seen, which has
the value bit clear, without its lock bit, and stores a word with the value bit
set.  The trace starts with the `ticket.fetch_add` that returned the ticket,
and a call that returned `true` ended with a successful compare-exchange. -/
theorem acquire_slow_claims_at_head (b : BinaryConsts) (hb : b.WF) (k : Config)
    (sh : Shared) (env : List Tick) :
    (∀ pre e d s ok post,
        (run b k (Proc.init sh) env).trace = pre ++ Ev.cas e d s ok :: post →
        (∃ pre0 cs, pre = pre0 ++ Ev.tocketLoad (run b k (Proc.init sh) env).lo.tick :: cs ∧
            ∀ x ∈ cs, ∃ e' d' s' ok', x = Ev.cas e' d' s' ok') ∧
        e = lastSeen pre &&& not32 b.lockbit ∧ lastSeen pre &&& b.valubit = 0 ∧
        e &&& b.valubit = 0 ∧ e &&& b.lockbit = 0 ∧ d &&& b.valubit ≠ 0 ∧
        (ok = true → s = e)) ∧
    ((run b k (Proc.init sh) env).trace ≠ [] →
        (run b k (Proc.init sh) env).trace.head? =
          some (Ev.ticketFetchAdd (run b k (Proc.init sh) env).lo.tick)) ∧
    ((run b k (Proc.init sh) env).pc = PC.done true →
        ∃ pre e d, (run b k (Proc.init sh) env).trace = pre ++ [Ev.cas e d e true]) := by
  have h := headInv_run b hb k sh env
  refine ⟨?_, ?_, h.won⟩
  · intro pre e d s ok post htr
    have hg := h.guarded
    rw [htr] at hg
    obtain ⟨ha, hw, he, hl, hd, hs⟩ := guarded_split b _ false 0 pre _ post hg
    refine ⟨atHead_explicit _ pre ha, he, hw, ?_, hl, hd, hs⟩
    rw [he]; exact and_not32_of_and_eq_zero hw _
  · intro hne
    apply h.drawn
    intro hpc
    exact hne (h.fresh hpc)

/-- Claim C9 applied to an uncontended acquire of a free semaphore. -/
theorem acquire_slow_claims_at_head_witness :
    ∃ pre e d, (run BinaryConsts.std ⟨true, untimedFn⟩ (Proc.init ⟨0, 0, 0⟩)
      [Tick.calm, Tick.calm, Tick.calm, Tick.calm, Tick.calm]).trace =
        pre ++ [Ev.cas e d e true] :=
  (acquire_slow_claims_at_head BinaryConsts.std (by decide) ⟨true, untimedFn⟩ ⟨0, 0, 0⟩
    [Tick.calm, Tick.calm, Tick.calm, Tick.calm, Tick.calm]).2.2 (by decide)

/-! ## Binary semaphore: the continuation credit -/

theorem credits_append (xs ys : List Ev) : credits (xs ++ ys) = credits xs + credits ys := by
  induction xs with
  | nil => simp [credits]
  | cons x xs ih =>
    cases x
    case fetchAdd v => simp [credits, ih]; omega
    all_goals simp [credits, ih]

theorem credits_sleepy (evs : List Ev) (h : evs = [] ∨ ∃ d, evs = [Ev.sleep d]) :
    credits evs = 0 := by
  rcases h with rfl | ⟨d, rfl⟩ <;> rfl

theorem not_mem_sleepy (evs : List Ev) (h : evs = [] ∨ ∃ d, evs = [Ev.sleep d]) :
    Ev.headUnavailable ∉ evs := by
  rcases h with rfl | ⟨d, rfl⟩ <;> simp

theorem fetchAdd_not_mem_sleepy (evs : List Ev) (h : evs = [] ∨ ∃ d, evs = [Ev.sleep d]) :
    ∀ x ∈ evs, ∀ v, x ≠ Ev.fetchAdd v := by
  rcases h with rfl | ⟨d, rfl⟩ <;> simp

theorem contbit_pos (b : BinaryConsts) : b.contbit ≠ 0 := by
  unfold BinaryConsts.contbit; positivity

theorem creditInv_init (b : BinaryConsts) (sh : Shared) : CreditInv b (Proc.init sh) where
  unit := fun x hx => by simp [Proc.init] at hx
  early := fun _ => ⟨rfl, by simp [Proc.init]⟩
  pending := fun h => by simp [Proc.init] at h
  settled := fun _ h => by simp [Proc.init] at h
  won := fun h => by simp [Proc.init] at h

/-- The credit invariant survives a step that appends events without
`fetch_add` and without leaving the claiming loop, and keeps `contbit`. -/
theorem creditInv_neutral {b : BinaryConsts} {p q : Proc} (h : CreditInv b p) (evs : List Ev)
    (htr : q.trace = p.trace ++ evs) (hcr : credits evs = 0)
    (hgh : Ev.headUnavailable ∉ evs) (hun : ∀ x ∈ evs, ∀ v, x ≠ Ev.fetchAdd v)
    (hcont : q.lo.contbit = p.lo.contbit)
    (hp1 : p.pc ≠ PC.addCredit) (hp2 : p.pc ≠ PC.ticketFetchAdd) (hp3 : p.pc ≠ PC.tocketInit)
    (hq1 : q.pc ≠ PC.addCredit) (hq2 : q.pc ≠ PC.ticketFetchAdd) (hq3 : q.pc ≠ PC.tocketInit)
    (hwon : q.pc = PC.done true → ∃ pre e d, q.trace = pre ++ [Ev.cas e d e true] ∧
      d = add32 (sub32 e (credits q.trace * b.contbit)) b.valubit) :
    CreditInv b q where
  unit := by
    intro x hx v hv
    rw [htr] at hx
    rcases List.mem_append.1 hx with hx | hx
    · exact h.unit x hx v hv
    · exact absurd hv (hun x hx v)
  early := fun hc => by rcases hc with hc | hc <;> contradiction
  pending := fun hc => absurd hc hq1
  settled := by
    intro _ _ _
    rw [htr, hcont, credits_append, hcr, add_zero]
    rcases h.settled hp1 hp2 hp3 with ⟨a1, a2, a3⟩ | ⟨a1, a2, a3⟩
    · refine Or.inl ⟨a1, a2, ?_⟩
      intro hm
      rcases List.mem_append.1 hm with hm | hm
      · exact a3 hm
      · exact hgh hm
    · exact Or.inr ⟨a1, a2, List.mem_append_left _ a3⟩
  won := hwon

/-- The credit invariant survives leaving the claiming loop with the value bit
set: either the credit is about to be added, or it was added before. -/
theorem creditInv_exit {b : BinaryConsts} {p q : Proc} (h : CreditInv b p) (e0 : Ev)
    (sl : List Ev) (htr : q.trace = p.trace ++ e0 :: Ev.headUnavailable :: sl)
    (he0 : ∀ v, e0 ≠ Ev.fetchAdd v) (hsl : sl = [] ∨ ∃ d, sl = [Ev.sleep d])
    (hcont : q.lo.contbit = p.lo.contbit)
    (hp1 : p.pc ≠ PC.addCredit) (hp2 : p.pc ≠ PC.ticketFetchAdd) (hp3 : p.pc ≠ PC.tocketInit)
    (hor : (q.pc = PC.addCredit ∧ p.lo.contbit = 0) ∨
      ((q.pc = PC.atomLoad ∨ q.pc = PC.fetchOr) ∧ p.lo.contbit ≠ 0)) :
    CreditInv b q := by
  have hcr : credits (e0 :: Ev.headUnavailable :: sl) = 0 := by
    have := credits_sleepy sl hsl
    cases e0 <;> simp [credits, this]
    exact absurd rfl (he0 _)
  have hmem : Ev.headUnavailable ∈ q.trace := by rw [htr]; simp
  have hq2 : q.pc ≠ PC.ticketFetchAdd := by
    rcases hor with ⟨hq, _⟩ | ⟨hq | hq, _⟩ <;> simp [hq]
  have hq3 : q.pc ≠ PC.tocketInit := by
    rcases hor with ⟨hq, _⟩ | ⟨hq | hq, _⟩ <;> simp [hq]
  have hq4 : q.pc ≠ PC.done true := by
    rcases hor with ⟨hq, _⟩ | ⟨hq | hq, _⟩ <;> simp [hq]
  exact {
    unit := by
      intro x hx v hv
      rw [htr] at hx
      rcases List.mem_append.1 hx with hx | hx
      · exact h.unit x hx v hv
      · rcases List.mem_cons.1 hx with hx | hx
        · rw [hx] at hv; exact absurd hv (he0 v)
        · rcases List.mem_cons.1 hx with hx | hx
          · rw [hx] at hv; exact Ev.noConfusion hv
          · exact absurd hv (fetchAdd_not_mem_sleepy sl hsl x hx v)
    early := fun hc => by rcases hc with hc | hc <;> contradiction
    pending := by
      intro hc
      rcases hor with ⟨_, hz⟩ | ⟨hq | hq, _⟩
      · rcases h.settled hp1 hp2 hp3 with ⟨a1, a2, a3⟩ | ⟨a1, a2, a3⟩
        · exact ⟨by rw [hcont]; exact a1, by rw [htr, credits_append, hcr, a2], hmem⟩
        · rw [hz] at a1; exact absurd a1.symm (contbit_pos b)
      · rw [hq] at hc; exact PC.noConfusion hc
      · rw [hq] at hc; exact PC.noConfusion hc
    settled := by
      intro hc _ _
      rcases hor with ⟨hq, _⟩ | ⟨_, hnz⟩
      · exact absurd hq hc
      · rcases h.settled hp1 hp2 hp3 with ⟨a1, a2, a3⟩ | ⟨a1, a2, a3⟩
        · exact absurd a1 hnz
        · exact Or.inr ⟨by rw [hcont]; exact a1, by rw [htr, credits_append, hcr, a2], hmem⟩
    won := fun hc => absurd hc hq4 }

theorem creditInv_step (b : BinaryConsts) (k : Config) (p : Proc) (t : Tick)
    (h : CreditInv b p) : CreditInv b (step b k p t) := by
  cases hpc : p.pc with
  | ticketFetchAdd =>
    obtain ⟨e1, e2⟩ := h.early (Or.inl hpc)
    simp only [step, hpc]
    exact {
      unit := by
        intro x hx v hv
        rcases List.mem_append.1 hx with hx | hx
        · exact h.unit x hx v hv
        · rw [List.mem_singleton.1 hx] at hv; exact Ev.noConfusion hv
      early := fun _ => ⟨by
        show credits (p.trace ++ _) = 0
        rw [credits_append, e1]; rfl, by
        show Ev.headUnavailable ∉ p.trace ++ _
        simp [e2]⟩
      pending := fun hc => by simp at hc
      settled := fun _ _ hc => by simp at hc
      won := fun hc => by simp at hc }
  | tocketInit =>
    obtain ⟨e1, e2⟩ := h.early (Or.inr hpc)
    obtain ⟨lo', pc', evs, hlh, h1, h2, h3, h4, h5, h6⟩ :=
      loopHead_cases k.fast { p.lo with tock := t.pre.getD p.sh.tocket, contbit := 0, sum := 0 }
    simp only [step, hpc, hlh]
    exact {
      unit := by
        intro x hx v hv
        rcases List.mem_append.1 hx with hx | hx
        · exact h.unit x hx v hv
        · rcases List.mem_cons.1 hx with hx | hx
          · rw [hx] at hv; exact Ev.noConfusion hv
          · exact absurd hv (fetchAdd_not_mem_sleepy evs h6 x hx v)
      early := fun hc => by rcases h5 with h5 | ⟨h5, _⟩ <;> simp [h5] at hc
      pending := fun hc => by rcases h5 with h5 | ⟨h5, _⟩ <;> simp [h5] at hc
      settled := fun _ _ _ => Or.inl ⟨h2, by
        show credits (p.trace ++ _ :: evs) = 0
        rw [credits_append, e1]
        simp [credits, credits_sleepy evs h6], by
        show Ev.headUnavailable ∉ p.trace ++ _ :: evs
        have := not_mem_sleepy evs h6
        simp [e2, this]⟩
      won := fun hc => by rcases h5 with h5 | ⟨h5, _⟩ <;> simp [h5] at hc }
  | fetchOr =>
    simp only [step, hpc]
    refine creditInv_neutral h [Ev.fetchOr b.slowbit (t.pre.getD p.sh.atom)] rfl rfl (by simp)
      (by simp) rfl (by simp [hpc]) (by simp [hpc]) (by simp [hpc]) ?_ ?_ ?_ ?_
    · show (if _ then _ else _) ≠ _; split_ifs <;> simp
    · show (if _ then _ else _) ≠ _; split_ifs <;> simp
    · show (if _ then _ else _) ≠ _; split_ifs <;> simp
    · intro hc; split_ifs at hc
  | callFn =>
    simp only [step, hpc]
    refine creditInv_neutral h _ rfl ?_ ?_ ?_ rfl (by simp [hpc]) (by simp [hpc])
      (by simp [hpc]) ?_ ?_ ?_ ?_
    · split_ifs <;> rfl
    · split_ifs <;> simp
    · split_ifs <;> simp
    · show (if _ then _ else _) ≠ _; split_ifs <;> simp
    · show (if _ then _ else _) ≠ _; split_ifs <;> simp
    · show (if _ then _ else _) ≠ _; split_ifs <;> simp
    · intro hc; split_ifs at hc <;> simp at hc
  | atomLoad =>
    simp only [step, hpc]
    refine creditInv_neutral h [Ev.atomLoad (t.pre.getD p.sh.atom)] rfl rfl (by simp)
      (by simp) rfl (by simp [hpc]) (by simp [hpc]) (by simp [hpc]) ?_ ?_ ?_ ?_
    · show (if _ then _ else _) ≠ _; split_ifs <;> simp
    · show (if _ then _ else _) ≠ _; split_ifs <;> simp
    · show (if _ then _ else _) ≠ _; split_ifs <;> simp
    · intro hc; split_ifs at hc
  | tocketLoad =>
    simp only [step, hpc]
    by_cases hv : t.pre.getD p.sh.tocket ≠ p.lo.tick
    · rw [if_pos hv]
      obtain ⟨lo', pc', evs, hlh, h1, h2, h3, h4, h5, h6⟩ :=
        loopHead_cases k.fast { p.lo with tock := t.pre.getD p.sh.tocket }
      simp only [hlh]
      refine creditInv_neutral h (Ev.tocketLoad (t.pre.getD p.sh.tocket) :: evs) rfl ?_ ?_ ?_ h2
        (by simp [hpc]) (by simp [hpc]) (by simp [hpc]) ?_ ?_ ?_ ?_
      · simp [credits, credits_sleepy evs h6]
      · have := not_mem_sleepy evs h6
        simp [this]
      · intro x hx v
        rcases List.mem_cons.1 hx with hx | hx
        · rw [hx]; exact fun hh => Ev.noConfusion hh
        · exact fetchAdd_not_mem_sleepy evs h6 x hx v
      · rcases h5 with h5 | ⟨h5, _⟩ <;> simp [h5]
      · rcases h5 with h5 | ⟨h5, _⟩ <;> simp [h5]
      · rcases h5 with h5 | ⟨h5, _⟩ <;> simp [h5]
      · intro hc; rcases h5 with h5 | ⟨h5, _⟩ <;> simp [h5] at hc
    · rw [if_neg hv]
      rcases claimHead_cases b k.fast { p.lo with tock := t.pre.getD p.sh.tocket } with
        ⟨hz, hch⟩ | ⟨hnz, lo', pc', evs, hch, h1, h2, h3, h4, hor⟩
      · simp only [hch]
        exact creditInv_neutral h [Ev.tocketLoad (t.pre.getD p.sh.tocket)] rfl rfl (by simp)
          (by simp) rfl (by simp [hpc]) (by simp [hpc]) (by simp [hpc]) (by simp) (by simp)
          (by simp) (fun hc => by simp at hc)
      · simp only [hch]
        refine creditInv_exit h (Ev.tocketLoad (t.pre.getD p.sh.tocket)) evs rfl
          (fun v hh => Ev.noConfusion hh) ?_ h2 (by simp [hpc]) (by simp [hpc]) (by simp [hpc]) ?_
        · rcases hor with ⟨_, _, he⟩ | ⟨_, _, he⟩
          · exact Or.inl he
          · exact he
        · rcases hor with ⟨hp, hz, _⟩ | ⟨hp | ⟨hp, _⟩, hnz', _⟩
          · exact Or.inl ⟨hp, hz⟩
          · exact Or.inr ⟨Or.inl hp, hnz'⟩
          · exact Or.inr ⟨Or.inr hp, hnz'⟩
  | cas =>
    simp only [step, hpc]
    by_cases hc : t.pre.getD p.sh.atom = p.lo.old &&& not32 b.lockbit ∧ t.spurious = false
    · rw [if_pos hc]
      refine creditInv_neutral h [Ev.cas (p.lo.old &&& not32 b.lockbit)
        (add32 (sub32 (p.lo.old &&& not32 b.lockbit) p.lo.contbit) b.valubit)
        (t.pre.getD p.sh.atom) true] rfl rfl (by simp) (by simp) rfl
        (by simp [hpc]) (by simp [hpc]) (by simp [hpc]) (by simp) (by simp) (by simp) ?_
      intro _
      refine ⟨p.trace, p.lo.old &&& not32 b.lockbit,
        add32 (sub32 (p.lo.old &&& not32 b.lockbit) p.lo.contbit) b.valubit, ?_, ?_⟩
      · show p.trace ++ [_] = p.trace ++ [_]
        rw [hc.1]
      · show _ = add32 (sub32 _ (credits (p.trace ++ _) * b.contbit)) b.valubit
        rw [credits_append]
        rcases h.settled (by simp [hpc]) (by simp [hpc]) (by simp [hpc]) with
          ⟨a1, a2, _⟩ | ⟨a1, a2, _⟩
        · rw [a1, a2]; simp [credits]
        · rw [a1, a2]; simp [credits]
    · rw [if_neg hc]
      rcases claimHead_cases b k.fast { p.lo with old := t.pre.getD p.sh.atom } with
        ⟨hz, hch⟩ | ⟨hnz, lo', pc', evs, hch, h1, h2, h3, h4, hor⟩
      · simp only [hch]
        exact creditInv_neutral h [Ev.cas (p.lo.old &&& not32 b.lockbit)
          (add32 (sub32 (p.lo.old &&& not32 b.lockbit) p.lo.contbit) b.valubit)
          (t.pre.getD p.sh.atom) false] rfl rfl (by simp) (by simp) rfl
          (by simp [hpc]) (by simp [hpc]) (by simp [hpc]) (by simp) (by simp) (by simp)
          (fun hc => by simp at hc)
      · simp only [hch]
        refine creditInv_exit h (Ev.cas (p.lo.old &&& not32 b.lockbit)
          (add32 (sub32 (p.lo.old &&& not32 b.lockbit) p.lo.contbit) b.valubit)
          (t.pre.getD p.sh.atom) false) evs rfl
          (fun v hh => Ev.noConfusion hh) ?_ h2 (by simp [hpc]) (by simp [hpc]) (by simp [hpc]) ?_
        · rcases hor with ⟨_, _, he⟩ | ⟨_, _, he⟩
          · exact Or.inl he
          · exact he
        · rcases hor with ⟨hp, hz, _⟩ | ⟨hp | ⟨hp, _⟩, hnz', _⟩
          · exact Or.inl ⟨hp, hz⟩
          · exact Or.inr ⟨Or.inl hp, hnz'⟩
          · exact Or.inr ⟨Or.inr hp, hnz'⟩
  | addCredit =>
    obtain ⟨e1, e2, e3⟩ := h.pending hpc
    obtain ⟨lo', pc', evs, hlh, h1, h2, h3, h4, h5, h6⟩ :=
      loopHead_cases k.fast { p.lo with contbit := b.contbit }
    simp only [step, hpc, hlh]
    exact {
      unit := by
        intro x hx v hv
        rcases List.mem_append.1 hx with hx | hx
        · exact h.unit x hx v hv
        · rcases List.mem_cons.1 hx with hx | hx
          · rw [hx] at hv; injection hv with hv; exact hv.symm
          · exact absurd hv (fetchAdd_not_mem_sleepy evs h6 x hx v)
      early := fun hc => by rcases h5 with h5 | ⟨h5, _⟩ <;> simp [h5] at hc
      pending := fun hc => by rcases h5 with h5 | ⟨h5, _⟩ <;> simp [h5] at hc
      settled := fun _ _ _ => Or.inr ⟨h2, by
        show credits (p.trace ++ _ :: evs) = 1
        rw [credits_append, e2]
        simp [credits, credits_sleepy evs h6], by
        show Ev.headUnavailable ∈ p.trace ++ _ :: evs
        exact List.mem_append_left _ e3⟩
      won := fun hc => by rcases h5 with h5 | ⟨h5, _⟩ <;> simp [h5] at hc }
  | done r =>
    have : step b k p t = p := by simp only [step, hpc]
    rw [this]; exact h

theorem creditInv_run (b : BinaryConsts) (k : Config) (sh : Shared) (env : List Tick) :
    CreditInv b (run b k (Proc.init sh) env) :=
  run_induction b k (CreditInv b) (fun p t h => creditInv_step b k p t h) env _
    (creditInv_init b sh)

/-- Claim C10: in every run of `__binary_semaphore_acquire_slow`, whatever other
threads do, every `fetch_add` on the word adds `__contbit`; the number of them
(counting the one about to be executed) is one if the call has left the
claiming loop with the value bit set at least once and zero otherwise; it
leaves the claiming loop that way only at the head of the queue (after a
`tocket` load of the loop that returned its ticket and nothing but
compare-exchange attempts since) having last seen a word with the value bit
set, and whenever it is at the head having last seen such a word that is the
next thing it does; and the compare-exchange of a call that returned `true`
stored the expected word minus as many credits as the call added, at most
one, plus the value bit. -/
theorem acquire_slow_credit (b : BinaryConsts) (hb : b.WF) (k : Config)
    (sh : Shared) (env : List Tick) :
    (∀ x ∈ (run b k (Proc.init sh) env).trace, ∀ v, x = Ev.fetchAdd v → v = b.contbit) ∧
    (credits (run b k (Proc.init sh) env).trace +
        (if (run b k (Proc.init sh) env).pc = PC.addCredit then 1 else 0) =
      if Ev.headUnavailable ∈ (run b k (Proc.init sh) env).trace then 1 else 0) ∧
    (∀ pre post, (run b k (Proc.init sh) env).trace = pre ++ Ev.headUnavailable :: post →
        (∃ pre0 cs, pre = pre0 ++ Ev.tocketLoad (run b k (Proc.init sh) env).lo.tick :: cs ∧
            ∀ x ∈ cs, ∃ e' d' s' ok', x = Ev.cas e' d' s' ok') ∧
        lastSeen pre &&& b.valubit ≠ 0) ∧
    (∀ pre x post, (run b k (Proc.init sh) env).trace = pre ++ x :: post →
        atHead (run b k (Proc.init sh) env).lo.tick pre = true →
        lastSeen pre &&& b.valubit ≠ 0 → x = Ev.headUnavailable) ∧
    ((run b k (Proc.init sh) env).pc = PC.done true →
        ∃ pre e d, (run b k (Proc.init sh) env).trace = pre ++ [Ev.cas e d e true] ∧
          d = add32 (sub32 e (credits (run b k (Proc.init sh) env).trace * b.contbit))
            b.valubit ∧
          credits (run b k (Proc.init sh) env).trace ≤ 1) := by
  have hH := headInv_run b hb k sh env
  have hC := creditInv_run b k sh env
  have hcount : credits (run b k (Proc.init sh) env).trace +
        (if (run b k (Proc.init sh) env).pc = PC.addCredit then 1 else 0) =
      if Ev.headUnavailable ∈ (run b k (Proc.init sh) env).trace then 1 else 0 := by
    by_cases h1 : (run b k (Proc.init sh) env).pc = PC.addCredit
    · obtain ⟨_, a2, a3⟩ := hC.pending h1
      rw [if_pos h1, if_pos a3, a2]
    · rw [if_neg h1, add_zero]
      by_cases h2 : (run b k (Proc.init sh) env).pc = PC.ticketFetchAdd ∨
          (run b k (Proc.init sh) env).pc = PC.tocketInit
      · obtain ⟨a2, a3⟩ := hC.early h2
        rw [if_neg a3, a2]
      · rcases hC.settled h1 (fun h => h2 (Or.inl h)) (fun h => h2 (Or.inr h)) with
          ⟨_, a2, a3⟩ | ⟨_, a2, a3⟩
        · rw [if_neg a3, a2]
        · rw [if_pos a3, a2]
  refine ⟨hC.unit, hcount, ?_, ?_, ?_⟩
  · intro pre post htr
    have hg := hH.guarded
    rw [htr] at hg
    obtain ⟨ha, hw⟩ := guarded_split b _ false 0 pre _ post hg
    exact ⟨atHead_explicit _ pre ha, hw⟩
  · intro pre x post htr ha hw
    have hg := hH.guarded
    rw [htr] at hg
    have hx := guarded_split b _ false 0 pre x post hg
    have ha' : List.foldl (armNext (run b k (Proc.init sh) env).lo.tick) false pre = true := ha
    have hw' : List.foldl lastNext 0 pre &&& b.valubit ≠ 0 := hw
    cases x with
    | headUnavailable => rfl
    | cas e d s ok => exact absurd hx.2.1 hw'
    | _ => rw [ha'] at hx; exact Bool.noConfusion hx
  · intro hd
    obtain ⟨pre, e, d, h1, h2⟩ := hC.won hd
    refine ⟨pre, e, d, h1, h2, ?_⟩
    have := hcount
    split_ifs at this <;> omega

/-- Claim C10 applied to an uncontended acquire of a free semaphore. -/
theorem acquire_slow_credit_witness :
    ∃ pre e d, (run BinaryConsts.std ⟨true, untimedFn⟩ (Proc.init ⟨0, 0, 0⟩)
      [Tick.calm, Tick.calm, Tick.calm, Tick.calm, Tick.calm]).trace =
        pre ++ [Ev.cas e d e true] ∧
      d = add32 (sub32 e (credits (run BinaryConsts.std ⟨true, untimedFn⟩ (Proc.init ⟨0, 0, 0⟩)
        [Tick.calm, Tick.calm, Tick.calm, Tick.calm, Tick.calm]).trace *
          BinaryConsts.std.contbit)) BinaryConsts.std.valubit ∧
      credits (run BinaryConsts.std ⟨true, untimedFn⟩ (Proc.init ⟨0, 0, 0⟩)
        [Tick.calm, Tick.calm, Tick.calm, Tick.calm, Tick.calm]).trace ≤ 1 :=
  (acquire_slow_credit BinaryConsts.std (by decide) ⟨true, untimedFn⟩ ⟨0, 0, 0⟩
    [Tick.calm, Tick.calm, Tick.calm, Tick.calm, Tick.calm]).2.2.2.2 (by decide)

/-! ## Binary semaphore: the timed acquire -/

/-- Claim C6 fails on the code: a timed acquire with ticket `512` behind
`tocket = 0` on a taken semaphore (word `1`) sleeps, finds `tocket` advanced to
its ticket, adds the continuation credit, registers as a waiter and times out
in the callback.  It returns `false` with the word at `13`: the slow bit `4`
and the credit `8` it added are both still there.  Built without the fast
path and left alone at the head of the queue, it returns `false` with the word
at `9`, the credit again left behind. -/
theorem acquire_slow_timed_leaks_credit :
    BinaryConsts.std.WF ∧
    (acquire_slow_timed BinaryConsts.std true 1000 ⟨1, 512, 0⟩
      [Tick.calm, Tick.calm, Tick.calm, ⟨some 512, false, 0, 0⟩, Tick.calm, Tick.calm,
        ⟨none, false, 5000, 6000⟩]) =
      ⟨⟨13, 513, 512⟩, ⟨512, 512, 8, 65536, 13⟩, PC.done false,
        [Ev.ticketFetchAdd 512, Ev.tocketInit 0, Ev.sleep 65536, Ev.atomLoad 1,
          Ev.tocketLoad 512, Ev.headUnavailable, Ev.fetchAdd 8, Ev.fetchOr 4 9,
          Ev.fence, Ev.fn 13 false]⟩ ∧
    13 ≠ 1 ||| BinaryConsts.std.slowbit ∧
    (acquire_slow_timed BinaryConsts.std false 1000 ⟨1, 0, 0⟩
      [Tick.calm, Tick.calm, Tick.calm, ⟨none, false, 0, 500⟩, Tick.calm, Tick.calm,
        Tick.calm, ⟨none, false, 2000, 3000⟩]) =
      ⟨⟨9, 1, 0⟩, ⟨0, 0, 8, 0, 9⟩, PC.done false,
        [Ev.ticketFetchAdd 0, Ev.tocketInit 0, Ev.sleep 0, Ev.atomLoad 1, Ev.fn 1 true,
          Ev.tocketLoad 0, Ev.headUnavailable, Ev.fetchAdd 8, Ev.sleep 0, Ev.atomLoad 9,
          Ev.fn 9 false]⟩ := by
  decide

theorem spin_delta (t0 : Nat) :
    mul32 (sub32 t0 t0) 128 = 0 ∧ add32 0 (mul32 (sub32 t0 t0) 128) = 0 := by
  have h : sub32 t0 t0 = 0 := by unfold sub32; omega
  rw [h]; exact ⟨rfl, rfl⟩

theorem loopHead_spin {t0 : Nat} (lo : Local)
    (h1 : lo.tick = t0) (h2 : lo.tock = t0) (h3 : lo.sum = 0) :
    loopHead true lo = ({ lo with sum := 0 }, PC.atomLoad, [Ev.sleep 0]) := by
  unfold loopHead
  rw [if_pos rfl, if_pos (by rw [h3]; norm_num), h1, h2, h3, (spin_delta t0).1]
  rfl

theorem spinning_step (b : BinaryConsts) (hb : b.WF) (fn : Nat → Tick → Bool) {t0 : Nat}
    (p : Proc) (t : Tick) (ht : t.pre = none)
    (h : Spinning b t0 p) : Spinning b t0 (step b ⟨true, fn⟩ p t) := by
  obtain ⟨htock, hval, hfn, hpc⟩ := h
  have hfn' : ∀ evs : List Ev, (∀ x ∈ evs, ∀ old res, x ≠ Ev.fn old res) →
      ∀ old res, Ev.fn old res ∉ p.trace ++ evs := by
    intro evs he old res hm
    rcases List.mem_append.1 hm with hm | hm
    · exact hfn old res hm
    · exact he _ hm old res rfl
  rcases hpc with ⟨hpc, hticket⟩ | ⟨hpc, htick⟩ | ⟨htick, htk, hsum, hpc | ⟨hpc, hold⟩ | hpc⟩
  · simp only [step, hpc, ht, Option.getD_none]
    exact ⟨htock, hval, hfn' _ (by simp), Or.inr (Or.inl ⟨rfl, hticket⟩)⟩
  · simp only [step, hpc, ht, Option.getD_none]
    rw [loopHead_spin ⟨p.lo.tick, p.sh.tocket, 0, 0, p.lo.old⟩ htick htock rfl]
    exact ⟨htock, hval, hfn' _ (by simp), Or.inr (Or.inr ⟨htick, htock, rfl, Or.inl rfl⟩)⟩
  · simp only [step, hpc, ht, Option.getD_none, if_true]
    exact ⟨htock, hval, hfn' _ (by simp),
      Or.inr (Or.inr ⟨htick, htk, hsum, Or.inr (Or.inl ⟨rfl, hval⟩)⟩)⟩
  · simp only [step, hpc, ht, Option.getD_none]
    rw [if_neg (by rw [htock, htick]; simp)]
    unfold claimHead
    rw [if_neg hold]
    by_cases hc : p.lo.contbit = 0
    · simp only [hc, if_true]
      exact ⟨htock, hval, hfn' _ (by simp),
        Or.inr (Or.inr ⟨htick, htock, hsum, Or.inr (Or.inr rfl)⟩)⟩
    · simp only [hc, if_false]
      rw [loopHead_spin ⟨p.lo.tick, p.sh.tocket, p.lo.contbit, p.lo.sum, p.lo.old⟩
        htick htock hsum]
      exact ⟨htock, hval, hfn' _ (by simp),
        Or.inr (Or.inr ⟨htick, htock, rfl, Or.inl rfl⟩)⟩
  · simp only [step, hpc, ht, Option.getD_none]
    rw [loopHead_spin ⟨p.lo.tick, p.lo.tock, b.contbit, p.lo.sum, p.lo.old⟩ htick htk hsum]
    refine ⟨htock, ?_, hfn' _ (by simp), Or.inr (Or.inr ⟨htick, htk, rfl, Or.inl rfl⟩)⟩
    show add32 p.sh.atom b.contbit &&& b.valubit ≠ 0
    unfold BinaryConsts.valubit at hval ⊢
    rw [and_two_pow_ne_zero] at hval ⊢
    rw [testBit_add32_contbit b hb]; exact hval

theorem spinning_run (b : BinaryConsts) (hb : b.WF) (fn : Nat → Tick → Bool) {t0 : Nat}
    (env : List Tick) (henv : ∀ t ∈ env, t.pre = none) (p : Proc)
    (h : Spinning b t0 p) : Spinning b t0 (run b ⟨true, fn⟩ p env) := by
  induction env generalizing p with
  | nil => exact h
  | cons t ts ih =>
    rw [run_cons]
    exact ih (fun x hx => henv x (List.mem_cons_of_mem _ hx)) _
      (spinning_step b hb fn p t (henv t (List.mem_cons_self _ _)) h)

/-- Claim C2 fails on the code: built with the fast path, a timed acquire that
enters with `ticket == tocket` on a word whose value bit is set and is left
alone never returns, whatever the duration and whatever the clock reads: it
stays at the head of the queue with a delay of zero, so the time slept never
reaches the threshold after which the callback, the only place that looks at
the clock, would be called. -/
theorem acquire_slow_timed_spins (b : BinaryConsts) (hb : b.WF) (rel_time : Int)
    (w t0 : Nat) (hw : w &&& b.valubit ≠ 0)
    (env : List Tick) (henv : ∀ t ∈ env, t.pre = none) :
    (∀ r, (acquire_slow_timed b true rel_time ⟨w, t0, t0⟩ env).pc ≠ PC.done r) ∧
    (∀ old res, Ev.fn old res ∉ (acquire_slow_timed b true rel_time ⟨w, t0, t0⟩ env).trace) := by
  have h0 : Spinning b t0 (Proc.init ⟨w, t0, t0⟩) :=
    ⟨rfl, hw, by simp [Proc.init], Or.inl ⟨rfl, rfl⟩⟩
  obtain ⟨_, _, hfn, hpc⟩ := spinning_run b hb (timedFn rel_time) env henv _ h0
  refine ⟨?_, hfn⟩
  intro r hr
  unfold acquire_slow_timed at hr
  rcases hpc with ⟨h, _⟩ | ⟨h, _⟩ | ⟨_, _, _, h | ⟨h, _⟩ | h⟩ <;> rw [hr] at h <;>
    exact PC.noConfusion h

/-- Claim C2's failure exhibited on a taken semaphore (word `1`) with an empty
queue and a duration of 1000 ns: after 40 operations, with the clock far past
the deadline, the call has not returned. -/
theorem acquire_slow_timed_spins_witness :
    (acquire_slow_timed BinaryConsts.std true 1000 ⟨1, 0, 0⟩
      (List.replicate 40 ⟨none, false, 1000000, 2000000⟩)).pc ≠ PC.done false ∧
    (acquire_slow_timed BinaryConsts.std true 1000 ⟨1, 0, 0⟩
      (List.replicate 40 ⟨none, false, 1000000, 2000000⟩)).pc ≠ PC.done true :=
  ⟨(acquire_slow_timed_spins BinaryConsts.std (by decide) 1000 1 0 (by decide)
      (List.replicate 40 ⟨none, false, 1000000, 2000000⟩)
      (fun t ht => by rw [List.eq_of_mem_replicate ht])).1 false,
   (acquire_slow_timed_spins BinaryConsts.std (by decide) 1000 1 0 (by decide)
      (List.replicate 40 ⟨none, false, 1000000, 2000000⟩)
      (fun t ht => by rw [List.eq_of_mem_replicate ht])).1 true⟩

/-- The second way claim C2 fails on the code: the callback computes its
deadline from the clock at each call.  Queued behind `tocket` (ticket `512`,
`tocket` `0`) on a taken semaphore with a duration of 1000 ns, a call whose
waits are cut short (the clock advances 500 ns inside each callback and a
millisecond between them) is still running when the clock reads 3000500. -/
theorem acquire_slow_timed_rearms :
    (acquire_slow_timed BinaryConsts.std true 1000 ⟨1, 512, 0⟩
      [Tick.calm, Tick.calm, Tick.calm, Tick.calm,
        Tick.calm, ⟨none, false, 1000000, 1000500⟩, Tick.calm, Tick.calm,
        Tick.calm, ⟨none, false, 2000000, 2000500⟩, Tick.calm, Tick.calm,
        Tick.calm, ⟨none, false, 3000000, 3000500⟩, Tick.calm, Tick.calm]).pc = PC.fetchOr ∧
    (acquire_slow_timed BinaryConsts.std true 1000 ⟨1, 512, 0⟩
      [Tick.calm, Tick.calm, Tick.calm, Tick.calm,
        Tick.calm, ⟨none, false, 1000000, 1000500⟩, Tick.calm, Tick.calm,
        Tick.calm, ⟨none, false, 2000000, 2000500⟩, Tick.calm, Tick.calm,
        Tick.calm, ⟨none, false, 3000000, 3000500⟩, Tick.calm, Tick.calm]).trace =
      [Ev.ticketFetchAdd 512, Ev.tocketInit 0, Ev.sleep 65536, Ev.atomLoad 1, Ev.tocketLoad 0,
        Ev.fetchOr 4 1, Ev.fence, Ev.fn 5 true, Ev.atomLoad 5, Ev.tocketLoad 0,
        Ev.fetchOr 4 5, Ev.fence, Ev.fn 5 true, Ev.atomLoad 5, Ev.tocketLoad 0,
        Ev.fetchOr 4 5, Ev.fence, Ev.fn 5 true, Ev.atomLoad 5, Ev.tocketLoad 0] := by
  decide

end Semaphore
